import Mathlib

/-!
# alini: an incremental INI parser (`alini.c`)

A shallow embedding of `alini.c` and the properties of its line scanner.

Modelling conventions.

* A byte is a `Char`; the terminating NUL of a C string is `'\x00'`.  A C string
  (`char *`) is the list of its characters before the terminator (`Str`).
* The input stream (`FILE *`) is the list of bytes that have not been read yet.
* Allocation (`strdup`, `calloc`) is assumed to succeed in `stripws` and
  `alini_parser_step`, so the branches taken when it returns `NULL` are not
  part of the model there.  `alini_parser_create` takes the outcome of its
  allocations and of `fopen` as an argument (`CreateEnv`).
* The line counter is a C `int`; its increment is taken modulo `2^32` in the
  range of a 32-bit `int` (`wrapInt`).  The other integers of the source are
  bounded by the size of the line buffer.
* The diagnostics written to `stderr` are not part of the model.
* The caller's handler is a function pointer in C.  Its effect is modelled by a
  function of the caller's own state (`σ`) and the stored context (`κ`) that
  returns the caller's new state, the argument of a call to
  `alini_parser_set_context` (if the handler made one) and whether it called
  `alini_parser_halt`.  Handlers that re-enter the parser (by calling
  `alini_parser_step`, `alini_parser_start` or `alini_parser_dispose`) are
  outside the model.
* `alini_parser_step` and `alini_parser_start` are loops; they are modelled
  with a fuel argument that bounds the number of iterations, and the exported
  functions supply enough fuel (more than the number of bytes left in the
  stream).  Running out of fuel, like calling a handler that was never
  registered, gives `none`.
-/

namespace Alini

/-! ## Strings -/

/-- Content of a NUL-terminated C string. -/
abbrev Str := List Char

/-- The string terminator. -/
def NUL : Char := '\x00'

/-- The test `isspace` of `<ctype.h>` in the C locale: space, `\t`, `\n`, `\v`, `\f`, `\r`. -/
def isspace (c : Char) : Bool :=
  c == ' ' || c == '\t' || c == '\n' || c == '\x0b' || c == '\x0c' || c == '\r'

/-- The C string held by a buffer: the bytes before the first NUL. -/
def cstr (buf : List Char) : Str :=
  buf.takeWhile (fun c => c != NUL)

/-- The character `str[i]` of a NUL-terminated string: the terminator sits at index `strlen`. -/
def charAt (str : Str) (i : Nat) : Char :=
  str.getD i NUL

/-- First loop of `stripws`: `while (isspace(str[begin])) begin++;`.
The first argument is the part of the string from index `begin` on; the loop
stops at the terminator because NUL is not a whitespace character. -/
def skipLeading : Str → Nat → Nat
  | [], begin => begin
  | c :: cs, begin => if isspace c then skipLeading cs (begin + 1) else begin

/-- Second loop of `stripws`: `while ((end >= begin) && isspace(str[end])) end--;`.
The last argument is `end + 1` (so that the initial `len - 1` of the source is
`len` here and the value `-1` of `end` is `0`); the result is `end + 1` as well. -/
def skipTrailing (str : Str) (begin : Nat) : Nat → Nat
  | 0 => 0
  | e + 1 =>
    if begin ≤ e && isspace (charAt str e) then skipTrailing str begin e else e + 1

/-- The call `stripws(org_str, len)`: a copy of `org_str[begin..end]`, where `begin` and
`end` are found by the two loops.  When `end < begin` the copy is empty.
The source is called with `len ≤ strlen(org_str)` only. -/
def stripws (org_str : Str) (len : Nat) : Str :=
  let begin := skipLeading org_str 0
  let stop := skipTrailing org_str begin len
  (org_str.drop begin).take (stop - begin)

/-- The call `strchr(s, c)` as an offset: the index of the first `c` in `s`, if any. -/
def strchr : Str → Char → Option Nat
  | [], _ => none
  | x :: xs, c => if x = c then some 0 else (strchr xs c).map (fun i => i + 1)

/-! ## The stream -/

/-- Bytes taken by one `fgets` that may store at most `n` characters: up to and
including the first newline, at most `n` of them.  Returns the bytes read and
the rest of the stream. -/
def fgetsChars : List Char → Nat → List Char × List Char
  | [], _ => ([], [])
  | c :: cs, n =>
    if n = 0 then ([], c :: cs)
    else if c = '\n' then ([c], cs)
    else ((fgetsChars cs (n - 1)).1.cons c, (fgetsChars cs (n - 1)).2)

/-- The call `fgets(line, size, file)`: `none` at end of file (nothing read), otherwise
the string left in `line` and the rest of the stream.  At most `size - 1` bytes
are read.  The string seen by the caller ends at the first NUL byte read. -/
def fgets (size : Nat) (file : List Char) : Option (Str × List Char) :=
  match file with
  | [] => none
  | _ :: _ => some (cstr (fgetsChars file (size - 1)).1, (fgetsChars file (size - 1)).2)

/-! ## The parser -/

/-- One invocation of the handler: the arguments `section`, `key`, `value`
(`sect = none` is the `NULL` section). -/
structure Call where
  sect : Option Str
  key : Str
  value : Str
deriving DecidableEq, Repr

/-- What one run of the caller's handler did. -/
structure HandlerEffect (σ κ : Type) where
  /-- the caller's own state after the handler returned -/
  world : σ
  /-- the argument of `alini_parser_set_context`, if the handler called it -/
  newctx : Option κ
  /-- whether the handler called `alini_parser_halt` -/
  halt : Bool

/-- Type of the key-value handler: it sees the caller's state, the stored
context and the three strings. -/
abbrev alini_parser_foundkvpair_callback (σ κ : Type) :=
  σ → κ → Option Str → Str → Str → HandlerEffect σ κ

/-- Value of a C `int` that is assigned the arithmetic result `x`: the
representative of `x` modulo `2^32` in the range `-2^31 .. 2^31 - 1` (32-bit
two's complement; an increment past `INT_MAX` wraps to `INT_MIN`). -/
def wrapInt (x : Int) : Int :=
  (x + 2147483648) % 4294967296 - 2147483648

/-- The line counter after `k` executions of `parser->linenumber++` from `n`. -/
def countLines : Nat → Int → Int
  | 0, n => n
  | k + 1, n => countLines k (wrapInt (n + 1))

/-- The fields of `struct alini_parser_s` used by `alini.c`.  `linenumber` is a
C `int`: the increment in `alini_parser_step` goes through `wrapInt`. -/
structure alini_parser_t (σ κ : Type) where
  path : Str
  file : List Char
  activesection : Option Str
  /-- the field `on` of the source (`on` is a reserved word here) -/
  running : Bool
  linenumber : Int
  foundkvpair_callback : Option (alini_parser_foundkvpair_callback σ κ)
  ctx : κ

/-- Result of a call of `alini_parser_step` or `alini_parser_start`: the
returned status, the parser and the caller's state afterwards, and the handler
invocations made during the call, oldest first. -/
structure Outcome (σ κ : Type) where
  ret : Int
  parser : alini_parser_t σ κ
  world : σ
  calls : List Call

variable {σ κ : Type}

/-- The function `alini_parser_setcallback_foundkvpair`: stores the handler, returns 0. -/
def alini_parser_setcallback_foundkvpair (parser : alini_parser_t σ κ)
    (callback : alini_parser_foundkvpair_callback σ κ) : Int × alini_parser_t σ κ :=
  (0, { parser with foundkvpair_callback := some callback })

/-- The function `alini_parser_set_context`: stores the context value. -/
def alini_parser_set_context (parser : alini_parser_t σ κ) (ctx : κ) : alini_parser_t σ κ :=
  { parser with ctx := ctx }

/-- The function `alini_parser_get_context`: returns the stored context value. -/
def alini_parser_get_context (parser : alini_parser_t σ κ) : κ :=
  parser.ctx

/-- The function `alini_parser_halt`: clears the field `on`. -/
def alini_parser_halt (parser : alini_parser_t σ κ) : alini_parser_t σ κ :=
  { parser with running := false }

/-- The function `alini_parser_get_linenumber`: returns the line counter. -/
def alini_parser_get_linenumber (parser : alini_parser_t σ κ) : Int :=
  parser.linenumber

/-- The skip test of `alini_parser_step` (source lines 159-170): the first
character is `#`, `;`, `\n` or `\r`, or no character of the line makes
`iswspace` false. -/
def skipLine (line : Str) : Bool :=
  (charAt line 0 == '#' || charAt line 0 == ';' || charAt line 0 == '\n'
    || charAt line 0 == '\r')
  || line.all (fun c => !(!isspace c && c != '\n' && c != '\r'))

/-- The call `parser->foundkvpair_callback(parser, parser->activesection, key, value)`,
with the calls of `alini_parser_set_context` and `alini_parser_halt` the handler
made applied to the parser. -/
def invokeCallback (parser : alini_parser_t σ κ) (world : σ)
    (callback : alini_parser_foundkvpair_callback σ κ) (key value : Str) :
    alini_parser_t σ κ × σ :=
  let r := callback world parser.ctx parser.activesection key value
  let p1 := match r.newctx with
    | some c => alini_parser_set_context parser c
    | none => parser
  let p2 := if r.halt then alini_parser_halt p1 else p1
  (p2, r.world)

/-- The `while(1)` loop of `alini_parser_step`; one unit of fuel per iteration. -/
def stepLoop : Nat → alini_parser_t σ κ → σ → Option (Outcome σ κ)
  | 0, _, _ => none
  | fuel + 1, parser, world =>
    match fgets 4095 parser.file with
    | none => some ⟨1, parser, world, []⟩
    | some (line, rest) =>
      let parser :=
        { parser with file := rest, linenumber := wrapInt (parser.linenumber + 1) }
      if skipLine line then stepLoop fuel parser world
      else
        let tmpline := stripws line line.length
        let len := tmpline.length
        if len > 2 && charAt tmpline 0 == '[' then
          if charAt tmpline (len - 1) == ']' then
            stepLoop fuel
              { parser with
                activesection := some (stripws (tmpline.drop 1) (tmpline.length - 2)) }
              world
          else some ⟨-1, parser, world, []⟩
        else
          match strchr line '=' with
          | none => some ⟨-1, parser, world, []⟩
          | some i =>
            let key := stripws line i
            let value := stripws (line.drop (i + 1)) (line.length - (i + 1))
            match parser.foundkvpair_callback with
            | none => none
            | some callback =>
              some ⟨0, (invokeCallback parser world callback key value).1,
                (invokeCallback parser world callback key value).2,
                [⟨parser.activesection, key, value⟩]⟩

/-- The function `alini_parser_step`: reset the line counter to 1, then run the loop. -/
def alini_parser_step (parser : alini_parser_t σ κ) (world : σ) : Option (Outcome σ κ) :=
  stepLoop (parser.file.length + 1) { parser with linenumber := 1 } world

/-- The loop of `alini_parser_start`: `while (parser->on && (ret == 0))`.
`calls` collects the handler invocations made so far. -/
def startLoop : Nat → alini_parser_t σ κ → σ → Int → List Call → Option (Outcome σ κ)
  | 0, _, _, _, _ => none
  | fuel + 1, parser, world, ret, calls =>
    if parser.running && ret == 0 then
      match alini_parser_step parser world with
      | none => none
      | some o =>
        if o.ret < 0 then some ⟨-1, o.parser, o.world, calls ++ o.calls⟩
        else startLoop fuel o.parser o.world o.ret (calls ++ o.calls)
    else some ⟨0, parser, world, calls⟩

/-- The function `alini_parser_start`: the loop from status 0, with no call made yet. -/
def alini_parser_start (parser : alini_parser_t σ κ) (world : σ) : Option (Outcome σ κ) :=
  startLoop (parser.file.length + 2) parser world 0 []

/-! ## Vocabulary of the specification

The definitions below follow the words of the specification; the theorems
compare them with the functions translated from the source. -/

/-- Trimming: the string without its leading and its trailing whitespace. -/
def trim (s : Str) : Str :=
  (s.dropWhile isspace).rdropWhile isspace

/-- Successive reads: calling `fgets` on `file` once per element of `lines`
delivers exactly `lines`, in order, and leaves `rest` unread.  With `rest = []`
the list `lines` is the whole input, cut into the physical lines the parser
reads (each at most 4094 bytes). -/
def readsLines : List Char → List Str → List Char → Bool
  | file, [], rest => file == rest
  | file, l :: ls, rest =>
    match fgets 4095 file with
    | none => false
    | some (l1, r) => l1 == l && readsLines r ls rest

/-- Header candidate: the trimmed line is longer than 2 characters and begins
with `[`. -/
def isHeaderCandidate (line : Str) : Bool :=
  decide (2 < (trim line).length) && (trim line).head? == some '['

/-- The trimmed line ends with `]`. -/
def endsWithBracket (line : Str) : Bool :=
  (trim line).getLast? == some ']'

/-- Name announced by a header line: the interior of the trimmed line (without
its first and its last character), trimmed again. -/
def sectionName (line : Str) : Str :=
  trim ((trim line).drop 1).dropLast

/-- The line contains a `=`. -/
def hasEq (line : Str) : Bool :=
  decide ('=' ∈ line)

/-- Key of a key-value line: everything before the first `=`, trimmed. -/
def keyOf (line : Str) : Str :=
  trim (line.takeWhile (fun c => c != '='))

/-- Value of a key-value line: everything after the first `=`, trimmed. -/
def valueOf (line : Str) : Str :=
  trim ((line.dropWhile (fun c => c != '=')).drop 1)

/-- Malformed line: a line that is not skipped and is either a header candidate
without the closing `]`, or not a header candidate and without `=`. -/
def isMalformed (line : Str) : Bool :=
  !skipLine line &&
    ((isHeaderCandidate line && !endsWithBracket line)
      || (!isHeaderCandidate line && !hasEq line))

/-- Key-value line: not skipped, not a header candidate, and with a `=`. -/
def isKeyValue (line : Str) : Bool :=
  !skipLine line && !isHeaderCandidate line && hasEq line

/-- Silent line: a line the step passes without returning, that is a skipped
line or a header with both brackets. -/
def isSilent (line : Str) : Bool :=
  skipLine line || (isHeaderCandidate line && endsWithBracket line)

/-- Comment or blank line, as the specification lists them: the first character
is `#` or `;`, the line is empty, it has only line-ending characters, or it has
only whitespace. -/
def isCommentOrBlank (line : Str) : Bool :=
  (line.head? == some '#' || line.head? == some ';')
    || line.isEmpty
    || line.all (fun c => c == '\n' || c == '\r')
    || line.all isspace

/-- Section in force after `lines`, starting from `sect`: the name of the last
header line, or `sect` when there is none. -/
def sectionAfter : Option Str → List Str → Option Str
  | sect, [] => sect
  | sect, l :: ls =>
    if skipLine l then sectionAfter sect ls
    else if isHeaderCandidate l && endsWithBracket l then sectionAfter (some (sectionName l)) ls
    else sectionAfter sect ls

/-- The key-value lines of `lines` in file order, each with the name of the
nearest preceding header line (`sect` when no header precedes it). -/
def kvCalls : Option Str → List Str → List Call
  | _, [] => []
  | sect, l :: ls =>
    if skipLine l then kvCalls sect ls
    else if isHeaderCandidate l then
      (if endsWithBracket l then kvCalls (some (sectionName l)) ls else kvCalls sect ls)
    else if hasEq l then ⟨sect, keyOf l, valueOf l⟩ :: kvCalls sect ls
    else kvCalls sect ls

/-- Caller state and stored context after the handler has run on `calls`. -/
def feed (h : alini_parser_foundkvpair_callback σ κ) : σ → κ → List Call → σ × κ
  | w, c, [] => (w, c)
  | w, c, call :: cs =>
    feed h (h w c call.sect call.key call.value).world
      ((h w c call.sect call.key call.value).newctx.getD c) cs

/-- The handler calls `alini_parser_halt` in none of the invocations `calls`,
made in this order from caller state `w` and context `c`. -/
def haltFree (h : alini_parser_foundkvpair_callback σ κ) : σ → κ → List Call → Bool
  | _, _, [] => true
  | w, c, call :: cs =>
    !(h w c call.sect call.key call.value).halt &&
      haltFree h (h w c call.sect call.key call.value).world
        ((h w c call.sect call.key call.value).newctx.getD c) cs

/-! ## The loops with the fuel they need -/

/-- The loop of `alini_parser_step` continued from `parser`, with enough fuel. -/
def stepFrom (parser : alini_parser_t σ κ) (world : σ) : Option (Outcome σ κ) :=
  stepLoop (parser.file.length + 1) parser world

/-- The loop of `alini_parser_start` continued from `parser` with the status
`ret` of the previous step, with enough fuel. -/
def startFrom (parser : alini_parser_t σ κ) (world : σ) (ret : Int) (calls : List Call) :
    Option (Outcome σ κ) :=
  startLoop (parser.file.length + 2) parser world ret calls

/-- The loop of `alini_parser_start` seen from inside the step it is running:
the step continues from `parser`, then the loop goes on. -/
def startMid (parser : alini_parser_t σ κ) (world : σ) (calls : List Call) :
    Option (Outcome σ κ) :=
  match stepFrom parser world with
  | none => none
  | some o =>
    if o.ret < 0 then some ⟨-1, o.parser, o.world, calls ++ o.calls⟩
    else startFrom o.parser o.world o.ret (calls ++ o.calls)

/-! ## Construction -/

/-- Reason for which `fopen` returned `NULL`. -/
inductive OpenFailure where
  | noSuchFile
  | permissionDenied
  | otherFailure
deriving DecidableEq, Repr

/-- What `alini_parser_create` meets outside the parser: whether its `calloc`
and its `strdup` succeed, and what `fopen(path, "r")` gives for a path (the
content of the file, or the reason of the failure). -/
structure CreateEnv where
  callocOk : Bool
  strdupOk : Bool
  fopen : Str → Except OpenFailure (List Char)

/-- The function `alini_parser_create` for a non-`NULL` path: the returned
status and the parser left in `*parser` (`none` is `NULL`).  `null` is the
zeroed context left by `calloc`; the handler is `NULL` (`none`) and the line
counter 0 for the same reason.  On the `fail` path the parser is disposed of. -/
def alini_parser_create (env : CreateEnv) (null : κ) (path : Str) :
    Int × Option (alini_parser_t σ κ) :=
  if !env.callocOk then (-1, none)
  else if !env.strdupOk then (-1, none)
  else
    match env.fopen path with
    | .error _ => (1, none)
    | .ok content =>
      (0, some { path := path, file := content, activesection := none, running := true,
                 linenumber := 0, foundkvpair_callback := none, ctx := null })

/-! ## Example data -/

/-- A handler that does nothing. -/
def idleHandler : alini_parser_foundkvpair_callback Unit Unit :=
  fun w _ _ _ _ => ⟨w, none, false⟩

/-- A handler that counts its invocations in the caller's state and calls
`alini_parser_halt` during invocation number `n`. -/
def haltAt (n : Nat) : alini_parser_foundkvpair_callback Nat Unit :=
  fun w _ _ _ _ => ⟨w + 1, none, w + 1 == n⟩

/-- A handler that appends the arguments of each invocation to the caller's
state, so that this state is the sequence of invocations it has received. -/
def recordHandler : alini_parser_foundkvpair_callback (List Call) Unit :=
  fun w _ s k v => ⟨w ++ [⟨s, k, v⟩], none, false⟩

/-- The parser as `alini_parser_create` leaves it (no section, `on = 1`, the
other fields zeroed by `calloc`), after the handler `h` has been registered. -/
def freshParser {σ : Type} (file : List Char) (h : alini_parser_foundkvpair_callback σ Unit) :
    alini_parser_t σ Unit :=
  { path := [], file := file, activesection := none, running := true, linenumber := 0,
    foundkvpair_callback := some h, ctx := () }

/-- The end-to-end example of the specification, line by line. -/
def exampleLines : List Str :=
  ["; comment\n".toList, "[server]\n".toList, "host = localhost\n".toList,
   "port= 8080\n".toList, "\n".toList, "[client]\n".toList, "timeout = 30\n".toList]

/-- The end-to-end example of the specification, as a stream. -/
def exampleInput : List Char :=
  exampleLines.flatten

/-- An environment where allocation succeeds, `conf.ini` holds the end-to-end
example, `secret.ini` exists but may not be read, and no other file exists. -/
def exampleEnv : CreateEnv :=
  { callocOk := true
    strdupOk := true
    fopen := fun path =>
      if path = "conf.ini".toList then .ok exampleInput
      else if path = "secret.ini".toList then .error .permissionDenied
      else .error .noSuchFile }

/-- A running parser on `file` whose stored context is the number 7 and whose
handler does nothing. -/
def numberedParser (file : List Char) : alini_parser_t Unit Nat :=
  { path := [], file := file, activesection := none, running := true, linenumber := 0,
    foundkvpair_callback := some (fun w _ _ _ _ => ⟨w, none, false⟩), ctx := 7 }

/-! ## Auxiliary facts about strings -/

theorem skipLeading_eq (s : Str) (b : Nat) :
    skipLeading s b = b + (s.takeWhile isspace).length := by
  induction s generalizing b with
  | nil => simp [skipLeading]
  | cons c cs ih =>
    by_cases hc : isspace c = true
    · simp [skipLeading, hc, ih]; omega
    · simp [skipLeading, hc]

theorem skipTrailing_take (s : Str) (b e : Nat) (he : e ≤ s.length) :
    (s.drop b).take (skipTrailing s b e - b)
      = ((s.drop b).take (e - b)).rdropWhile isspace := by
  induction e with
  | zero => simp [skipTrailing]
  | succ e ih =>
    have he1 : e < s.length := he
    by_cases hb : b ≤ e
    · have hsplit : (s.drop b).take (e + 1 - b) = (s.drop b).take (e - b) ++ [charAt s e] := by
        have h1 : e + 1 - b = (e - b) + 1 := by omega
        have h2 : e - b < (s.drop b).length := by simp; omega
        rw [h1, List.take_succ, List.getElem?_eq_getElem h2]
        simp [charAt, List.getD_eq_getElem?_getD]
        have : b + (e - b) = e := by omega
        simp [this, List.getElem?_eq_getElem he1]
      by_cases hc : isspace (charAt s e) = true
      · rw [hsplit, List.rdropWhile_concat_pos _ _ _ hc, ← ih (by omega)]
        simp [skipTrailing, hb, hc]
      · rw [hsplit, List.rdropWhile_concat_neg _ _ _ hc, ← hsplit]
        simp [skipTrailing, hb, hc]
    · have h0 : e + 1 - b = 0 := by omega
      simp [skipTrailing, hb, h0]

theorem take_drop_takeWhile (p : Char → Bool) (s : Str) (len : Nat) :
    (s.drop (s.takeWhile p).length).take (len - (s.takeWhile p).length)
      = (s.take len).dropWhile p := by
  induction s generalizing len with
  | nil => simp
  | cons c cs ih =>
    by_cases hc : p c = true
    · cases len with
      | zero => simp [hc]
      | succ m => simp [hc, List.takeWhile_cons, List.dropWhile_cons, ih]
    · cases len with
      | zero => simp [hc]
      | succ m => simp [hc, List.takeWhile_cons, List.dropWhile_cons]

/-- On a region inside the string, `stripws` is trimming of the region. -/
theorem stripws_eq_trim (s : Str) (len : Nat) (h : len ≤ s.length) :
    stripws s len = trim (s.take len) := by
  unfold stripws trim
  simp only [skipLeading_eq, Nat.zero_add]
  rw [skipTrailing_take s _ len h, take_drop_takeWhile]

/-! ## Auxiliary facts about the stream and the loop body -/

theorem wrapInt_of_range (x : Int) (h1 : -2147483648 ≤ x) (h2 : x < 2147483648) :
    wrapInt x = x := by
  unfold wrapInt
  omega

theorem wrapInt_succ (x : Int) (k : Int) : wrapInt (wrapInt x + k) = wrapInt (x + k) := by
  unfold wrapInt
  omega

theorem wrapInt_two : wrapInt (1 + 1) = 2 := by
  decide

/-- After at least one increment the counter is the wrapped sum. -/
theorem countLines_succ (k : Nat) (n : Int) :
    countLines (k + 1) n = wrapInt (n + ((k : Int) + 1)) := by
  induction k generalizing n with
  | zero => simp [countLines]
  | succ k ih =>
    rw [countLines, ih, wrapInt_succ]
    congr 1
    push_cast
    omega

/-- Counting from 1, as every step does: the wrapped number of lines plus one. -/
theorem countLines_one (k : Nat) : countLines k 1 = wrapInt ((k : Int) + 1) := by
  cases k with
  | zero => decide
  | succ k =>
    rw [countLines_succ]
    congr 1
    push_cast
    omega

theorem fgetsChars_append (s : List Char) (n : Nat) :
    (fgetsChars s n).1 ++ (fgetsChars s n).2 = s := by
  induction s generalizing n with
  | nil => simp [fgetsChars]
  | cons c cs ih =>
    unfold fgetsChars
    by_cases hn : n = 0
    · simp [hn]
    · by_cases hc : c = '\n'
      · simp [hn, hc]
      · simp [hn, hc, ih]

theorem fgetsChars_rest_lt (c : Char) (cs : List Char) (n : Nat) (hn : 0 < n) :
    (fgetsChars (c :: cs) n).2.length < (c :: cs).length := by
  have h := congrArg List.length (fgetsChars_append cs (n - 1))
  unfold fgetsChars
  by_cases hc : c = '\n'
  · simp [Nat.pos_iff_ne_zero.mp hn, hc]
  · simp [Nat.pos_iff_ne_zero.mp hn, hc]
    simp at h
    omega

theorem fgets_rest_lt {file : List Char} {line : Str} {rest : List Char}
    (h : fgets 4095 file = some (line, rest)) : rest.length < file.length := by
  cases file with
  | nil => simp [fgets] at h
  | cons c cs =>
    simp only [fgets, Option.some.injEq, Prod.mk.injEq] at h
    rw [← h.2]
    exact fgetsChars_rest_lt c cs _ (by norm_num)

theorem fgets_eq_none {file : List Char} : fgets 4095 file = none ↔ file = [] := by
  cases file <;> simp [fgets]

theorem charAt_zero (t : Str) (c : Char) (h : 0 < t.length) :
    (charAt t 0 == c) = (t.head? == some c) := by
  cases t with
  | nil => simp at h
  | cons a as => simp [charAt]

theorem charAt_last (t : Str) (c : Char) (h : 0 < t.length) :
    (charAt t (t.length - 1) == c) = (t.getLast? == some c) := by
  have hne : t ≠ [] := by intro h0; simp [h0] at h
  rw [List.getLast?_eq_getLast _ hne, List.getLast_eq_getElem]
  simp [charAt, List.getD_eq_getElem?_getD]
  rw [List.getElem?_eq_getElem (by omega)]
  simp

theorem strchr_spec (s : Str) (c : Char) :
    (strchr s c = none ∧ c ∉ s) ∨
    (∃ i, strchr s c = some i ∧ c ∈ s ∧ s[i]? = some c ∧ c ∉ s.take i ∧
      s.takeWhile (fun x => x != c) = s.take i ∧ s.dropWhile (fun x => x != c) = s.drop i) := by
  induction s with
  | nil => left; simp [strchr]
  | cons x xs ih =>
    by_cases hx : x = c
    · right; exact ⟨0, by simp [strchr, hx]⟩
    · have hx2 : ¬ c = x := fun h => hx h.symm
      rcases ih with ⟨h1, h2⟩ | ⟨i, h1, h2, h3, h4, h5, h6⟩
      · left
        simp_all [strchr]
      · right
        refine ⟨i + 1, ?_⟩
        simp_all [strchr]

theorem stripws_full (line : Str) : stripws line line.length = trim line := by
  rw [stripws_eq_trim _ _ (le_refl _), List.take_length]

theorem header_test (line : Str) :
    (decide (2 < (stripws line line.length).length) && charAt (stripws line line.length) 0 == '[')
      = isHeaderCandidate line := by
  rw [stripws_full]
  unfold isHeaderCandidate
  by_cases h : 2 < (trim line).length
  · simp [h, charAt_zero _ _ (show 0 < (trim line).length by omega)]
  · simp [h]

theorem bracket_test (line : Str) (h : isHeaderCandidate line = true) :
    (charAt (stripws line line.length) ((stripws line line.length).length - 1) == ']')
      = endsWithBracket line := by
  rw [stripws_full]
  unfold isHeaderCandidate at h
  simp at h
  rw [charAt_last _ _ (by omega)]
  rfl

theorem section_eq (line : Str) (h : isHeaderCandidate line = true) :
    stripws ((stripws line line.length).drop 1) ((stripws line line.length).length - 2)
      = sectionName line := by
  rw [stripws_full]
  unfold isHeaderCandidate at h
  simp at h
  unfold sectionName
  rw [stripws_eq_trim _ _ (by simp; omega), List.dropLast_eq_take]
  congr 2
  simp
  omega

theorem key_value_eq (line : Str) (i : Nat) (h : strchr line '=' = some i) :
    stripws line i = keyOf line ∧
      stripws (line.drop (i + 1)) (line.length - (i + 1)) = valueOf line := by
  rcases strchr_spec line '=' with ⟨h1, _⟩ | ⟨j, h1, _, h3, _, h5, h6⟩
  · rw [h1] at h; cases h
  · have hji : j = i := by rw [h1] at h; exact Option.some.inj h
    subst hji
    have hj : j < line.length := by
      by_contra hc
      rw [List.getElem?_eq_none (by omega)] at h3
      cases h3
    constructor
    · rw [stripws_eq_trim _ _ (by omega)]; unfold keyOf; rw [h5]
    · rw [stripws_eq_trim _ _ (by simp)]; unfold valueOf; rw [h6]
      congr 1
      rw [List.drop_drop]
      have : line.length - (j + 1) = (List.drop (j + 1) line).length := by simp
      rw [this, List.take_length]

theorem stepLoop_succ (f : Nat) (p : alini_parser_t σ κ) (w : σ) (line : Str) (rest : List Char)
    (hf : fgets 4095 p.file = some (line, rest)) :
    stepLoop (f + 1) p w =
      if skipLine line then
        stepLoop f { p with file := rest, linenumber := wrapInt (p.linenumber + 1) } w
      else if isHeaderCandidate line then
        if endsWithBracket line then
          stepLoop f { p with file := rest, linenumber := wrapInt (p.linenumber + 1),
                              activesection := some (sectionName line) } w
        else some ⟨-1, { p with file := rest, linenumber := wrapInt (p.linenumber + 1) }, w, []⟩
      else if hasEq line then
        match p.foundkvpair_callback with
        | none => none
        | some cb =>
          some ⟨0,
            (invokeCallback { p with file := rest, linenumber := wrapInt (p.linenumber + 1) } w cb
              (keyOf line) (valueOf line)).1,
            (invokeCallback { p with file := rest, linenumber := wrapInt (p.linenumber + 1) } w cb
              (keyOf line) (valueOf line)).2,
            [⟨p.activesection, keyOf line, valueOf line⟩]⟩
      else some ⟨-1, { p with file := rest, linenumber := wrapInt (p.linenumber + 1) }, w, []⟩ := by
  rw [stepLoop]
  simp only [hf]
  by_cases hs : skipLine line = true
  · simp [hs]
  · simp only [hs, if_false, Bool.false_eq_true]
    have hh := header_test line
    simp only [gt_iff_lt] at hh ⊢
    rw [hh]
    by_cases hc : isHeaderCandidate line = true
    · simp only [hc, if_true]
      rw [bracket_test line hc, section_eq line hc]
    · simp only [hc, if_false, Bool.false_eq_true]
      rcases strchr_spec line '=' with ⟨h1, h2⟩ | ⟨i, h1, h2, _⟩
      · simp [h1, hasEq, h2]
      · have hkv := key_value_eq line i h1
        simp only [h1, hasEq, h2, decide_True, if_true]
        rw [hkv.1, hkv.2]

theorem invokeCallback_file (p : alini_parser_t σ κ) (w : σ)
    (cb : alini_parser_foundkvpair_callback σ κ) (k v : Str) :
    (invokeCallback p w cb k v).1.file = p.file ∧
    (invokeCallback p w cb k v).1.activesection = p.activesection ∧
    (invokeCallback p w cb k v).1.linenumber = p.linenumber ∧
    (invokeCallback p w cb k v).1.foundkvpair_callback = p.foundkvpair_callback ∧
    (invokeCallback p w cb k v).1.path = p.path := by
  unfold invokeCallback
  generalize cb w p.ctx p.activesection k v = r
  obtain ⟨rw, rc, rh⟩ := r
  cases rc <;> cases rh <;> simp [alini_parser_set_context, alini_parser_halt]

theorem stepLoop_fuel (f g : Nat) (p : alini_parser_t σ κ) (w : σ)
    (hf : p.file.length < f) (hg : p.file.length < g) :
    stepLoop f p w = stepLoop g p w := by
  induction f generalizing g p with
  | zero => omega
  | succ f ih =>
    cases g with
    | zero => omega
    | succ g =>
      cases hfg : fgets 4095 p.file with
      | none => rw [stepLoop, stepLoop]; simp [hfg]
      | some lr =>
        obtain ⟨line, rest⟩ := lr
        have hlt := fgets_rest_lt hfg
        rw [stepLoop_succ f p w line rest hfg, stepLoop_succ g p w line rest hfg]
        rw [ih g { p with file := rest, linenumber := wrapInt (p.linenumber + 1) } (by simp; omega)
              (by simp; omega),
            ih g { p with file := rest, linenumber := wrapInt (p.linenumber + 1),
                          activesection := some (sectionName line) } (by simp; omega)
              (by simp; omega)]

theorem stepFrom_eof (p : alini_parser_t σ κ) (w : σ) (h : p.file = []) :
    stepFrom p w = some ⟨1, p, w, []⟩ := by
  unfold stepFrom
  rw [stepLoop]
  simp [h, fgets]

theorem stepFrom_line (p : alini_parser_t σ κ) (w : σ) (line : Str) (rest : List Char)
    (hf : fgets 4095 p.file = some (line, rest)) :
    stepFrom p w =
      if skipLine line then
        stepFrom { p with file := rest, linenumber := wrapInt (p.linenumber + 1) } w
      else if isHeaderCandidate line then
        if endsWithBracket line then
          stepFrom { p with file := rest, linenumber := wrapInt (p.linenumber + 1),
                            activesection := some (sectionName line) } w
        else some ⟨-1, { p with file := rest, linenumber := wrapInt (p.linenumber + 1) }, w, []⟩
      else if hasEq line then
        match p.foundkvpair_callback with
        | none => none
        | some cb =>
          some ⟨0,
            (invokeCallback { p with file := rest, linenumber := wrapInt (p.linenumber + 1) } w cb
              (keyOf line) (valueOf line)).1,
            (invokeCallback { p with file := rest, linenumber := wrapInt (p.linenumber + 1) } w cb
              (keyOf line) (valueOf line)).2,
            [⟨p.activesection, keyOf line, valueOf line⟩]⟩
      else some ⟨-1, { p with file := rest, linenumber := wrapInt (p.linenumber + 1) }, w, []⟩ := by
  have hlt := fgets_rest_lt hf
  unfold stepFrom
  rw [stepLoop_succ _ p w line rest hf]
  rw [stepLoop_fuel p.file.length (rest.length + 1)
        { p with file := rest, linenumber := wrapInt (p.linenumber + 1) } w (by simpa using hlt) (by simp),
      stepLoop_fuel p.file.length (rest.length + 1)
        { p with file := rest, linenumber := wrapInt (p.linenumber + 1),
                 activesection := some (sectionName line) } w (by simpa using hlt) (by simp)]

/-- A step never puts bytes back, and a step that returns 0 has read some. -/
theorem stepLoop_consumes (f : Nat) (p : alini_parser_t σ κ) (w : σ) (o : Outcome σ κ)
    (h : stepLoop f p w = some o) :
    o.parser.file.length ≤ p.file.length ∧ (o.ret = 0 → o.parser.file.length < p.file.length) := by
  induction f generalizing p with
  | zero => simp [stepLoop] at h
  | succ f ih =>
    cases hfg : fgets 4095 p.file with
    | none =>
      rw [stepLoop] at h
      simp only [hfg] at h
      cases h
      simp
    | some lr =>
      obtain ⟨line, rest⟩ := lr
      have hlt := fgets_rest_lt hfg
      rw [stepLoop_succ f p w line rest hfg] at h
      split_ifs at h with h1 h2 h3 h4
      · have := ih _ h; simp at this; omega
      · have := ih _ h; simp at this; omega
      · cases h; simp; omega
      · cases hcb : p.foundkvpair_callback with
        | none => simp [hcb] at h
        | some cb =>
          simp only [hcb] at h
          cases h
          simp [(invokeCallback_file _ w cb _ _).1]
          omega
      · cases h; simp; omega

theorem startLoop_exit (f : Nat) (p : alini_parser_t σ κ) (w : σ) (ret : Int) (acc : List Call)
    (hf : 0 < f) (h : p.running = false ∨ ret ≠ 0) :
    startLoop f p w ret acc = some ⟨0, p, w, acc⟩ := by
  cases f with
  | zero => omega
  | succ f =>
    rw [startLoop]
    rcases h with h | h
    · simp [h]
    · simp [h]

theorem startLoop_fuel (f g : Nat) (p : alini_parser_t σ κ) (w : σ) (ret : Int)
    (acc : List Call) (hf : p.file.length + 1 < f) (hg : p.file.length + 1 < g) :
    startLoop f p w ret acc = startLoop g p w ret acc := by
  induction f generalizing g p w ret acc with
  | zero => omega
  | succ f ih =>
    cases g with
    | zero => omega
    | succ g =>
      rw [startLoop, startLoop]
      by_cases hc : (p.running && ret == 0) = true
      · simp only [hc, if_true]
        cases hs : alini_parser_step p w with
        | none => rfl
        | some o =>
          simp only []
          by_cases hneg : o.ret < 0
          · simp [hneg]
          · simp only [hneg, if_false]
            have hcons := stepLoop_consumes _ _ _ _ hs
            simp only [] at hcons
            by_cases h0 : o.ret = 0
            · exact ih g _ _ _ _ (by have := hcons.2 h0; omega) (by have := hcons.2 h0; omega)
            · rw [startLoop_exit f _ _ _ _ (by omega) (Or.inr h0),
                startLoop_exit g _ _ _ _ (by omega) (Or.inr h0)]
      · simp [hc]

theorem startFrom_stop (p : alini_parser_t σ κ) (w : σ) (ret : Int) (acc : List Call)
    (h : p.running = false ∨ ret ≠ 0) : startFrom p w ret acc = some ⟨0, p, w, acc⟩ :=
  startLoop_exit _ p w ret acc (by omega) h

theorem startFrom_run (p : alini_parser_t σ κ) (w : σ) (acc : List Call)
    (h : p.running = true) :
    startFrom p w 0 acc = startMid { p with linenumber := 1 } w acc := by
  have hstep : stepFrom { p with linenumber := 1 } w = alini_parser_step p w := rfl
  have hc : (p.running && (0 : Int) == 0) = true := by simp [h]
  unfold startFrom startMid
  rw [hstep, startLoop, if_pos hc]
  cases hs : alini_parser_step p w with
  | none => rfl
  | some o =>
    simp only []
    by_cases hneg : o.ret < 0
    · simp [hneg]
    · simp only [hneg, if_false]
      have hcons := stepLoop_consumes _ _ _ _ hs
      simp only [] at hcons
      unfold startFrom
      by_cases h0 : o.ret = 0
      · exact startLoop_fuel _ _ _ _ _ _ (by have := hcons.2 h0; omega) (by omega)
      · rw [startLoop_exit _ _ _ _ _ (by omega) (Or.inr h0),
          startLoop_exit _ _ _ _ _ (by omega) (Or.inr h0)]

theorem invokeCallback_eq (p : alini_parser_t σ κ) (w : σ)
    (cb : alini_parser_foundkvpair_callback σ κ) (k v : Str) :
    invokeCallback p w cb k v =
      ({ p with ctx := (cb w p.ctx p.activesection k v).newctx.getD p.ctx,
                running := p.running && !(cb w p.ctx p.activesection k v).halt },
        (cb w p.ctx p.activesection k v).world) := by
  unfold invokeCallback
  generalize cb w p.ctx p.activesection k v = r
  obtain ⟨rw, rc, rh⟩ := r
  cases rc <;> cases rh <;> simp [alini_parser_set_context, alini_parser_halt]

theorem startMid_line (p : alini_parser_t σ κ) (w : σ) (acc : List Call) (line : Str)
    (rest : List Char) (hf : fgets 4095 p.file = some (line, rest)) :
    startMid p w acc =
      if skipLine line then
        startMid { p with file := rest, linenumber := wrapInt (p.linenumber + 1) } w acc
      else if isHeaderCandidate line then
        if endsWithBracket line then
          startMid { p with file := rest, linenumber := wrapInt (p.linenumber + 1),
                            activesection := some (sectionName line) } w acc
        else some ⟨-1, { p with file := rest, linenumber := wrapInt (p.linenumber + 1) }, w, acc⟩
      else if hasEq line then
        match p.foundkvpair_callback with
        | none => none
        | some cb =>
          startFrom
            (invokeCallback { p with file := rest, linenumber := wrapInt (p.linenumber + 1) } w cb
              (keyOf line) (valueOf line)).1
            (invokeCallback { p with file := rest, linenumber := wrapInt (p.linenumber + 1) } w cb
              (keyOf line) (valueOf line)).2
            0 (acc ++ [⟨p.activesection, keyOf line, valueOf line⟩])
      else some ⟨-1, { p with file := rest, linenumber := wrapInt (p.linenumber + 1) }, w, acc⟩ := by
  unfold startMid
  rw [stepFrom_line p w line rest hf]
  split_ifs
  · rfl
  · rfl
  · simp
  · cases p.foundkvpair_callback <;> simp
  · simp

theorem readsLines_nil (file rest : List Char) :
    readsLines file [] rest = true ↔ file = rest := by
  simp [readsLines]

theorem readsLines_cons (file : List Char) (l : Str) (ls : List Str) (rest : List Char) :
    readsLines file (l :: ls) rest = true ↔
      ∃ r, fgets 4095 file = some (l, r) ∧ readsLines r ls rest = true := by
  rw [readsLines]
  cases hf : fgets 4095 file with
  | none => simp
  | some lr =>
    obtain ⟨l1, r⟩ := lr
    simp only [Bool.and_eq_true, beq_iff_eq, Option.some.injEq, Prod.mk.injEq]
    constructor
    · rintro ⟨h1, h2⟩
      exact ⟨r, ⟨h1, rfl⟩, h2⟩
    · rintro ⟨r1, ⟨h1, h2⟩, h3⟩
      subst h2
      exact ⟨h1, h3⟩

theorem readsLines_append (file : List Char) (a b : List Str) (rest : List Char) :
    readsLines file (a ++ b) rest = true ↔
      ∃ mid, readsLines file a mid = true ∧ readsLines mid b rest = true := by
  induction a generalizing file with
  | nil => simp [readsLines_nil]
  | cons l ls ih =>
    simp only [List.cons_append, readsLines_cons, ih]
    constructor
    · rintro ⟨r, h1, mid, h2, h3⟩
      exact ⟨mid, ⟨r, h1, h2⟩, h3⟩
    · rintro ⟨mid, ⟨r, h1, h2⟩, h3⟩
      exact ⟨r, h1, mid, h2, h3⟩

/-- Every input is cut into physical lines by the successive reads. -/
theorem readsLines_exists (file : List Char) : ∃ lines, readsLines file lines [] = true := by
  generalize hn : file.length = n
  induction n using Nat.strong_induction_on generalizing file with
  | _ n ih =>
    cases hfg : fgets 4095 file with
    | none =>
      refine ⟨[], ?_⟩
      rw [readsLines_nil]
      exact fgets_eq_none.mp hfg
    | some lr =>
      obtain ⟨l, r⟩ := lr
      have hlt := fgets_rest_lt hfg
      obtain ⟨ls, hls⟩ := ih r.length (by omega) r rfl
      exact ⟨l :: ls, (readsLines_cons file l ls []).mpr ⟨r, hfg, hls⟩⟩

/-- The run over lines that are not malformed, while the handler does not halt:
the loop of `alini_parser_start` reaches the end of these lines having made
exactly the calls `kvCalls`. -/
theorem startMid_lines (h : alini_parser_foundkvpair_callback σ κ) (lines : List Str) :
    ∀ (p : alini_parser_t σ κ) (w : σ) (acc : List Call) (rest : List Char),
      p.foundkvpair_callback = some h → p.running = true →
      readsLines p.file lines rest = true →
      (∀ l ∈ lines, isMalformed l = false) →
      haltFree h w p.ctx (kvCalls p.activesection lines) = true →
      ∃ n, startMid p w acc =
        startMid
          { p with file := rest, linenumber := n,
                   activesection := sectionAfter p.activesection lines,
                   ctx := (feed h w p.ctx (kvCalls p.activesection lines)).2 }
          (feed h w p.ctx (kvCalls p.activesection lines)).1
          (acc ++ kvCalls p.activesection lines) := by
  induction lines with
  | nil =>
    intro p w acc rest _ _ hr _ _
    rw [readsLines_nil] at hr
    refine ⟨p.linenumber, ?_⟩
    simp [kvCalls, sectionAfter, feed, ← hr]
  | cons l ls ih =>
    intro p w acc rest hcb hrun hr hgood hfree
    rw [readsLines_cons] at hr
    obtain ⟨r, hfg, hr⟩ := hr
    have hl : isMalformed l = false := hgood l (List.mem_cons_self _ _)
    have hls : ∀ x ∈ ls, isMalformed x = false := fun x hx => hgood x (List.mem_cons_of_mem _ hx)
    rw [startMid_line p w acc l r hfg]
    by_cases hs : skipLine l = true
    · simp only [hs, if_true, kvCalls, sectionAfter] at hfree ⊢
      exact ih { p with file := r, linenumber := wrapInt (p.linenumber + 1) } w acc rest hcb hrun hr hls hfree
    · by_cases hc : isHeaderCandidate l = true
      · have hb : endsWithBracket l = true := by
          simp [isMalformed, hs, hc] at hl
          exact hl
        simp only [hs, hc, hb, if_true, if_false, kvCalls, sectionAfter, Bool.and_self,
          Bool.false_eq_true] at hfree ⊢
        exact ih { p with file := r, linenumber := wrapInt (p.linenumber + 1),
                          activesection := some (sectionName l) } w acc rest hcb hrun hr hls hfree
      · have he : hasEq l = true := by
          simp [isMalformed, hs, hc] at hl
          exact hl
        simp only [hs, hc, he, if_true, if_false, kvCalls, sectionAfter, Bool.false_and,
          Bool.false_eq_true, hcb] at hfree ⊢
        rw [haltFree] at hfree
        simp only [Bool.and_eq_true, Bool.not_eq_true'] at hfree
        rw [invokeCallback_eq]
        simp only [hfree.1, hrun, Bool.not_false, Bool.and_self]
        rw [startFrom_run _ _ _ rfl]
        obtain ⟨n, hn⟩ := ih
          { p with file := r, linenumber := 1,
                   ctx := (h w p.ctx p.activesection (keyOf l) (valueOf l)).newctx.getD p.ctx }
          (h w p.ctx p.activesection (keyOf l) (valueOf l)).world
          (acc ++ [⟨p.activesection, keyOf l, valueOf l⟩]) rest hcb hrun hr hls hfree.2
        refine ⟨n, ?_⟩
        simp only [hrun, hcb] at hn ⊢
        rw [hn]
        simp [feed]

/-- The run of `alini_parser_start` over a first part of the input that has no
malformed line, while the handler does not halt. -/
theorem start_lines (h : alini_parser_foundkvpair_callback σ κ) (lines : List Str)
    (p : alini_parser_t σ κ) (w : σ) (rest : List Char)
    (hcb : p.foundkvpair_callback = some h) (hrun : p.running = true)
    (hread : readsLines p.file lines rest = true)
    (hgood : ∀ l ∈ lines, isMalformed l = false)
    (hfree : haltFree h w p.ctx (kvCalls p.activesection lines) = true) :
    ∃ n, alini_parser_start p w =
      startMid
        { p with file := rest, linenumber := n,
                 activesection := sectionAfter p.activesection lines,
                 ctx := (feed h w p.ctx (kvCalls p.activesection lines)).2 }
        (feed h w p.ctx (kvCalls p.activesection lines)).1
        (kvCalls p.activesection lines) := by
  have h1 : alini_parser_start p w = startMid { p with linenumber := 1 } w [] :=
    startFrom_run p w [] hrun
  obtain ⟨n, hn⟩ := startMid_lines h lines { p with linenumber := 1 } w [] rest hcb hrun hread
    hgood hfree
  exact ⟨n, by rw [h1, hn]; simp⟩

/-- Skipped lines only move the stream and the line counter. -/
theorem stepFrom_skips (skips : List Str) :
    ∀ (p : alini_parser_t σ κ) (w : σ) (rest : List Char),
      readsLines p.file skips rest = true → (∀ l ∈ skips, skipLine l = true) →
      stepFrom p w =
        stepFrom { p with file := rest, linenumber := countLines skips.length p.linenumber }
          w := by
  induction skips with
  | nil =>
    intro p w rest hr _
    rw [readsLines_nil] at hr
    simp [← hr, countLines]
  | cons l ls ih =>
    intro p w rest hr hs
    rw [readsLines_cons] at hr
    obtain ⟨r, hfg, hr⟩ := hr
    rw [stepFrom_line p w l r hfg, if_pos (hs l (List.mem_cons_self _ _))]
    rw [ih { p with file := r, linenumber := wrapInt (p.linenumber + 1) } w rest hr
      (fun x hx => hs x (List.mem_cons_of_mem _ hx))]
    rfl

/-- C2, as the code has it: when the next line that is not skipped is a
well-formed header, the step stores the trimmed name in `activesection`
without invoking the handler for that line, and it does not return there: the
loop goes on with the lines after the header.  In particular the status at the
end of the input is 1, with the section updated and no handler invocation. -/
theorem step_header_continues (p : alini_parser_t σ κ) (w : σ) (skips : List Str) (hdr : Str)
    (rest : List Char)
    (hread : readsLines p.file (skips ++ [hdr]) rest = true)
    (hskips : ∀ l ∈ skips, skipLine l = true)
    (hs : skipLine hdr = false) (hc : isHeaderCandidate hdr = true)
    (hb : endsWithBracket hdr = true) :
    alini_parser_step p w =
        stepLoop (rest.length + 1)
          { p with file := rest, linenumber := wrapInt ((skips.length : Int) + 2),
                   activesection := some (sectionName hdr) } w
      ∧ (rest = [] →
          alini_parser_step p w =
            some ⟨1, { p with file := [], linenumber := wrapInt ((skips.length : Int) + 2),
                              activesection := some (sectionName hdr) }, w, []⟩) := by
  rw [readsLines_append] at hread
  obtain ⟨mid, h1, h2⟩ := hread
  rw [readsLines_cons] at h2
  obtain ⟨r, hfg, h3⟩ := h2
  rw [readsLines_nil] at h3
  subst h3
  have hstep : alini_parser_step p w =
      stepFrom { p with file := r, linenumber := wrapInt ((skips.length : Int) + 2),
                        activesection := some (sectionName hdr) } w := by
    change stepFrom { p with linenumber := 1 } w = _
    rw [stepFrom_skips skips { p with linenumber := 1 } w mid h1 hskips]
    rw [stepFrom_line _ w hdr r hfg]
    simp only [hs, hc, hb, if_true, if_false, Bool.false_eq_true]
    have hnum : wrapInt (countLines skips.length 1 + 1) = wrapInt ((skips.length : Int) + 2) := by
      have e : (skips.length : Int) + 1 + 1 = (skips.length : Int) + 2 := by omega
      rw [countLines_one, wrapInt_succ, e]
    simp only [hnum]
  refine ⟨hstep, ?_⟩
  intro hr
  subst hr
  rw [hstep, stepFrom_eof _ _ rfl]

/-- C2, witness: a comment, then `[a]`, then a key-value line. -/
theorem step_header_continues_witness :
    alini_parser_step (freshParser "; c\n[a]\nk=v\n".toList idleHandler) () =
        stepLoop ("k=v\n".toList.length + 1)
          { freshParser "; c\n[a]\nk=v\n".toList idleHandler with
              file := "k=v\n".toList, linenumber := wrapInt ((["; c\n".toList].length : Int) + 2),
              activesection := some (sectionName "[a]\n".toList) } () :=
  (step_header_continues (freshParser "; c\n[a]\nk=v\n".toList idleHandler) ()
    ["; c\n".toList] "[a]\n".toList "k=v\n".toList (by decide) (by decide) (by decide)
    (by decide) (by decide)).1

/-- C2, counterexample: on `[a]` followed by `k=v` the step that meets the
header does not stop after it; it reads the key-value line as well and invokes
the handler.  On `[a]` alone the status is 1, not 0. -/
theorem step_header_counterexample :
    (isHeaderCandidate "[a]\n".toList && endsWithBracket "[a]\n".toList) = true ∧
    (alini_parser_step (freshParser "[a]\nk=v\n".toList idleHandler) ()).map
        (fun o => (o.ret, o.calls, o.parser.file))
      = some (0, [⟨some "a".toList, "k".toList, "v".toList⟩], []) ∧
    (alini_parser_step (freshParser "[a]\n".toList idleHandler) ()).map
        (fun o => (o.ret, o.calls, o.parser.activesection))
      = some (1, [], some "a".toList) := by
  decide

theorem first_occurrence (s : Str) (c : Char) (i : Nat) (h1 : s[i]? = some c)
    (h2 : c ∉ s.take i) :
    c ∈ s ∧ s.takeWhile (fun x => x != c) = s.take i ∧
      s.dropWhile (fun x => x != c) = s.drop i := by
  induction s generalizing i with
  | nil => simp at h1
  | cons x xs ih =>
    cases i with
    | zero =>
      simp at h1
      simp [h1]
    | succ j =>
      simp at h1
      simp [List.take_succ_cons] at h2
      have hx : ¬ x = c := fun h => h2.1 h.symm
      have := ih j h1 h2.2
      simp [hx, this, List.takeWhile_cons, List.dropWhile_cons]

/-- The step on a key-value line, in the vocabulary of the specification. -/
theorem step_keyvalue (p : alini_parser_t σ κ) (w : σ)
    (h : alini_parser_foundkvpair_callback σ κ) (line : Str) (rest : List Char)
    (hcb : p.foundkvpair_callback = some h)
    (hfg : fgets 4095 p.file = some (line, rest))
    (hs : skipLine line = false) (hc : isHeaderCandidate line = false)
    (he : hasEq line = true) :
    alini_parser_step p w =
      some ⟨0,
        { p with file := rest, linenumber := 2,
                 ctx := (h w p.ctx p.activesection (keyOf line) (valueOf line)).newctx.getD p.ctx,
                 running := p.running &&
                   !(h w p.ctx p.activesection (keyOf line) (valueOf line)).halt },
        (h w p.ctx p.activesection (keyOf line) (valueOf line)).world,
        [⟨p.activesection, keyOf line, valueOf line⟩]⟩ := by
  change stepFrom { p with linenumber := 1 } w = _
  rw [stepFrom_line { p with linenumber := 1 } w line rest hfg]
  simp only [hs, hc, he, if_true, if_false, Bool.false_eq_true, hcb, wrapInt_two]
  rw [invokeCallback_eq]

/-- C3: on a line that is not skipped, is not a header candidate and has its
first `=` at offset `i`, the step invokes the handler exactly once, with the
key `[0, i)` trimmed, the value `(i, end)` trimmed and the current section:
the caller's state, the context and the running flag after the step are those
this one invocation of the handler gives.  The step returns 0 and leaves the
following lines unread. -/
theorem step_keyvalue_line (p : alini_parser_t σ κ) (w : σ)
    (h : alini_parser_foundkvpair_callback σ κ) (line : Str) (rest : List Char) (i : Nat)
    (hcb : p.foundkvpair_callback = some h)
    (hfg : fgets 4095 p.file = some (line, rest))
    (hs : skipLine line = false) (hc : isHeaderCandidate line = false)
    (hi : line.get? i = some '=') (hfirst : '=' ∉ line.take i) :
    ∃ o, alini_parser_step p w = some o ∧ o.ret = 0 ∧
      o.calls = [⟨p.activesection, trim (line.take i), trim (line.drop (i + 1))⟩] ∧
      o.world =
        (h w p.ctx p.activesection (trim (line.take i)) (trim (line.drop (i + 1)))).world ∧
      o.parser.ctx =
        (h w p.ctx p.activesection (trim (line.take i))
          (trim (line.drop (i + 1)))).newctx.getD p.ctx ∧
      o.parser.running =
        (p.running &&
          !(h w p.ctx p.activesection (trim (line.take i)) (trim (line.drop (i + 1)))).halt) ∧
      o.parser.file = rest ∧ o.parser.activesection = p.activesection := by
  obtain ⟨hmem, htake, hdrop⟩ :=
    first_occurrence line '=' i (by rw [← List.get?_eq_getElem?]; exact hi) hfirst
  have he : hasEq line = true := by simp [hasEq, hmem]
  have hstep := step_keyvalue p w h line rest hcb hfg hs hc he
  have hk : keyOf line = trim (line.take i) := by simp [keyOf, htake]
  have hv : valueOf line = trim (line.drop (i + 1)) := by simp [valueOf, hdrop]
  rw [hk, hv] at hstep
  exact ⟨_, hstep, rfl, rfl, rfl, rfl, rfl, rfl, rfl⟩

/-- C3, witness: `a = b=c` delivers key `a` and value `b=c` to a handler that
records its invocations. -/
theorem step_keyvalue_line_witness :
    ∃ o, alini_parser_step (freshParser "a = b=c\nrest".toList recordHandler) [] = some o ∧
      o.ret = 0 ∧ o.world = [⟨none, "a".toList, "b=c".toList⟩] ∧
      o.parser.file = "rest".toList ∧ o.parser.activesection = none := by
  obtain ⟨o, h1, h2, _, h4, _, _, h7, h8⟩ :=
    step_keyvalue_line (freshParser "a = b=c\nrest".toList recordHandler) [] recordHandler
      "a = b=c\n".toList "rest".toList 2 rfl (by decide) (by decide) (by decide) (by decide)
      (by decide)
  exact ⟨o, h1, h2, h4.trans (by decide), h7, h8⟩

theorem fgetsChars_line (body rest : List Char) (n : Nat) (h1 : '\n' ∉ body)
    (h2 : body.length < n) :
    fgetsChars (body ++ '\n' :: rest) n = (body ++ ['\n'], rest) := by
  induction body generalizing n with
  | nil =>
    have hn : n ≠ 0 := by simp at h2; omega
    simp [fgetsChars, hn]
  | cons c cs ih =>
    simp at h1 h2
    have hn : n ≠ 0 := by omega
    have hc : ¬ c = '\n' := fun h => h1.1 h.symm
    rw [List.cons_append, fgetsChars]
    simp only [hn, hc, if_false]
    rw [ih (n - 1) h1.2 (by omega)]
    rfl

theorem cstr_of_not_mem (s : List Char) (h : NUL ∉ s) : cstr s = s := by
  unfold cstr
  rw [List.takeWhile_eq_self_iff]
  intro c hc
  simp only [bne_iff_ne, ne_eq]
  intro h0
  exact h (h0 ▸ hc)

theorem fgets_line (body rest : List Char) (h1 : '\n' ∉ body) (h0 : NUL ∉ body)
    (hlen : body.length + 1 ≤ 4094) :
    fgets 4095 (body ++ '\n' :: rest) = some (body ++ ['\n'], rest) := by
  have hne : body ++ '\n' :: rest ≠ [] := by simp
  have hfc := fgetsChars_line body rest 4094 h1 (by omega)
  have hn : NUL ∉ body ++ ['\n'] := by
    simp only [List.mem_append, List.mem_singleton, not_or]
    exact ⟨h0, by decide⟩
  cases hb : body ++ '\n' :: rest with
  | nil => exact absurd hb hne
  | cons c cs =>
    rw [fgets, ← hb]
    simp only [show 4095 - 1 = 4094 from rfl, hfc, cstr_of_not_mem _ hn]

theorem head?_trim (s : Str) : (trim s).head? = (s.dropWhile isspace).head? := by
  unfold trim
  cases hd : s.dropWhile isspace with
  | nil => simp
  | cons x t =>
    have hx : ¬ isspace x = true := by
      have := List.head?_dropWhile_not isspace s
      rw [hd] at this
      simpa using this
    have hne : List.rdropWhile isspace (x :: t) ≠ [] := by
      rw [Ne, List.rdropWhile_eq_nil_iff]
      intro hall
      exact hx (hall x (List.mem_cons_self _ _))
    obtain ⟨u, hu⟩ := List.rdropWhile_prefix isspace (l := x :: t)
    cases hr : List.rdropWhile isspace (x :: t) with
    | nil => exact absurd hr hne
    | cons y t2 =>
      rw [hr] at hu
      simp at hu
      simp [hu.1]

/-- Trimming removes whitespace padding around a string that neither begins nor
ends with whitespace. -/
theorem trim_padded (a k b : Str) (ha : ∀ c ∈ a, isspace c = true)
    (hb : ∀ c ∈ b, isspace c = true)
    (hk1 : ∀ c, k.head? = some c → isspace c = false)
    (hk2 : ∀ c, k.getLast? = some c → isspace c = false) :
    trim (a ++ k ++ b) = k := by
  unfold trim
  rw [List.append_assoc, List.dropWhile_append_of_pos ha]
  cases k with
  | nil =>
    have : List.dropWhile isspace b = [] := by
      rw [List.dropWhile_eq_nil_iff]; exact hb
    simp [this]
  | cons x t =>
    have hx : isspace x = false := hk1 x rfl
    rw [List.cons_append, List.dropWhile_cons_of_neg (by simp [hx]), ← List.cons_append]
    unfold List.rdropWhile
    rw [List.reverse_append, List.dropWhile_append_of_pos (by simpa using hb)]
    have hlast : ∀ c, (x :: t).reverse.head? = some c → isspace c = false := by
      intro c hc
      rw [List.head?_reverse] at hc
      exact hk2 c hc
    cases hr : (x :: t).reverse with
    | nil => simp at hr
    | cons y u =>
      rw [hr] at hlast
      rw [List.dropWhile_cons_of_neg (by simp [hlast y rfl]), ← hr, List.reverse_reverse]

theorem isspace_of_blank (a : Str) (ha : ∀ c ∈ a, c = ' ' ∨ c = '\t') :
    ∀ c ∈ a, isspace c = true := by
  intro c hc
  rcases ha c hc with h | h <;> subst h <;> decide

/-- A line that begins, after spaces and tabs, with a character that is neither
whitespace nor one of `[`, `#`, `;` is neither skipped nor a header candidate. -/
theorem plain_line (a t : Str) (x : Char) (ha : ∀ c ∈ a, c = ' ' ∨ c = '\t')
    (hx : isspace x = false) (h1 : x ≠ '[') (h2 : x ≠ '#') (h3 : x ≠ ';') :
    skipLine (a ++ x :: t) = false ∧ isHeaderCandidate (a ++ x :: t) = false := by
  have hxn : x ≠ '\n' := by intro h; subst h; revert hx; decide
  have hxr : x ≠ '\r' := by intro h; subst h; revert hx; decide
  constructor
  · unfold skipLine
    have hall : (a ++ x :: t).all (fun c => !(!isspace c && c != '\n' && c != '\r')) = false := by
      rw [List.all_eq_false]
      exact ⟨x, by simp, by simp [hx, hxn, hxr]⟩
    rw [hall]
    cases a with
    | nil => simp [charAt, h2, h3, hxn, hxr]
    | cons c cs =>
      rcases ha c (List.mem_cons_self _ _) with h | h <;> subst h <;> simp [charAt]
  · unfold isHeaderCandidate
    rw [head?_trim, List.dropWhile_append_of_pos (isspace_of_blank a ha),
      List.dropWhile_cons_of_neg (by simp [hx])]
    simp [h1]

/-- C4: a key-value line padded with spaces and tabs around a key and a value
that have no whitespace at their ends delivers exactly that key and that
value, in one handler invocation: the caller's state, the context and the
running flag after the step are those the handler gives on `(section, k, v)`. -/
theorem step_padded_roundtrip (p : alini_parser_t σ κ) (w : σ)
    (h : alini_parser_foundkvpair_callback σ κ) (k v p1 p2 p3 p4 : Str) (rest : List Char)
    (hcb : p.foundkvpair_callback = some h)
    (hfile : p.file = p1 ++ k ++ p2 ++ ['='] ++ p3 ++ v ++ p4 ++ ['\n'] ++ rest)
    (hlen : (p1 ++ k ++ p2 ++ ['='] ++ p3 ++ v ++ p4 ++ ['\n']).length ≤ 4094)
    (hk1 : ∀ c, k.head? = some c → isspace c = false)
    (hk2 : ∀ c, k.getLast? = some c → isspace c = false)
    (hv1 : ∀ c, v.head? = some c → isspace c = false)
    (hv2 : ∀ c, v.getLast? = some c → isspace c = false)
    (hkn : '\n' ∉ k) (hk0 : NUL ∉ k) (hvn : '\n' ∉ v) (hv0 : NUL ∉ v)
    (hke : '=' ∉ k)
    (hkb : k.head? ≠ some '[') (hkh : k.head? ≠ some '#') (hks : k.head? ≠ some ';')
    (hp1 : ∀ c ∈ p1, c = ' ' ∨ c = '\t') (hp2 : ∀ c ∈ p2, c = ' ' ∨ c = '\t')
    (hp3 : ∀ c ∈ p3, c = ' ' ∨ c = '\t') (hp4 : ∀ c ∈ p4, c = ' ' ∨ c = '\t') :
    ∃ o, alini_parser_step p w = some o ∧ o.ret = 0 ∧
      o.calls = [⟨p.activesection, k, v⟩] ∧
      o.world = (h w p.ctx p.activesection k v).world ∧
      o.parser.ctx = (h w p.ctx p.activesection k v).newctx.getD p.ctx ∧
      o.parser.running = (p.running && !(h w p.ctx p.activesection k v).halt) ∧
      o.parser.file = rest := by
  have blank_not : ∀ (a : Str), (∀ c ∈ a, c = ' ' ∨ c = '\t') →
      '\n' ∉ a ∧ NUL ∉ a ∧ '=' ∉ a := by
    intro a ha
    refine ⟨?_, ?_, ?_⟩ <;> intro hm <;> rcases ha _ hm with e | e <;> revert e <;> decide
  obtain ⟨n1, z1, e1⟩ := blank_not p1 hp1
  obtain ⟨n2, z2, e2⟩ := blank_not p2 hp2
  obtain ⟨n3, z3, _⟩ := blank_not p3 hp3
  obtain ⟨n4, z4, _⟩ := blank_not p4 hp4
  -- the line read
  have hfg : fgets 4095 p.file
      = some (p1 ++ k ++ p2 ++ ['='] ++ p3 ++ v ++ p4 ++ ['\n'], rest) := by
    rw [hfile]
    have := fgets_line (p1 ++ k ++ p2 ++ ['='] ++ p3 ++ v ++ p4) rest
      (by simp [n1, n2, n3, n4, hkn, hvn])
      (by
        have q : NUL ≠ '=' := by decide
        simp [z1, z2, z3, z4, hk0, hv0, q])
      (by simp only [List.length_append, List.length_singleton] at hlen ⊢; omega)
    simpa [List.append_assoc] using this
  -- its shape around the first `=`
  have hshape : p1 ++ k ++ p2 ++ ['='] ++ p3 ++ v ++ p4 ++ ['\n']
      = (p1 ++ k ++ p2) ++ '=' :: (p3 ++ v ++ (p4 ++ ['\n'])) := by
    simp [List.append_assoc]
  have hpre : ∀ c ∈ p1 ++ k ++ p2, (c != '=') = true := by
    intro c hc
    simp only [List.mem_append] at hc
    simp only [bne_iff_ne, ne_eq]
    rintro rfl
    rcases hc with (hc | hc) | hc
    · exact e1 hc
    · exact hke hc
    · exact e2 hc
  have hkey : keyOf (p1 ++ k ++ p2 ++ ['='] ++ p3 ++ v ++ p4 ++ ['\n']) = k := by
    unfold keyOf
    rw [hshape, List.takeWhile_append_of_pos hpre, List.takeWhile_cons_of_neg (by simp)]
    simp only [List.append_nil]
    exact trim_padded p1 k p2 (isspace_of_blank p1 hp1) (isspace_of_blank p2 hp2) hk1 hk2
  have hval : valueOf (p1 ++ k ++ p2 ++ ['='] ++ p3 ++ v ++ p4 ++ ['\n']) = v := by
    unfold valueOf
    rw [hshape, List.dropWhile_append_of_pos hpre, List.dropWhile_cons_of_neg (by simp)]
    simp only [List.drop_succ_cons, List.drop_zero]
    refine trim_padded p3 v (p4 ++ ['\n']) (isspace_of_blank p3 hp3) ?_ hv1 hv2
    intro c hc
    simp only [List.mem_append, List.mem_singleton] at hc
    rcases hc with hc | hc
    · exact isspace_of_blank p4 hp4 c hc
    · subst hc; decide
  have heq : hasEq (p1 ++ k ++ p2 ++ ['='] ++ p3 ++ v ++ p4 ++ ['\n']) = true := by
    simp [hasEq]
  have hclass : skipLine (p1 ++ k ++ p2 ++ ['='] ++ p3 ++ v ++ p4 ++ ['\n']) = false ∧
      isHeaderCandidate (p1 ++ k ++ p2 ++ ['='] ++ p3 ++ v ++ p4 ++ ['\n']) = false := by
    cases k with
    | nil =>
      have := plain_line (p1 ++ p2) (p3 ++ v ++ (p4 ++ ['\n'])) '='
        (by intro c hc; simp only [List.mem_append] at hc; exact hc.elim (hp1 c) (hp2 c))
        (by decide) (by decide) (by decide) (by decide)
      simpa [List.append_assoc] using this
    | cons x t =>
      have := plain_line p1 (t ++ p2 ++ '=' :: (p3 ++ v ++ (p4 ++ ['\n']))) x hp1
        (hk1 x rfl) (by simpa using hkb) (by simpa using hkh) (by simpa using hks)
      simpa [List.append_assoc] using this
  have hstep := step_keyvalue p w h _ rest hcb hfg hclass.1 hclass.2 heq
  rw [hkey, hval] at hstep
  exact ⟨_, hstep, rfl, rfl, rfl, rfl, rfl, rfl⟩

/-- C4, witness: the line `  foo  =  bar baz  ` delivers `foo` and `bar baz` to
a handler that records its invocations. -/
theorem step_padded_roundtrip_witness :
    ∃ o, alini_parser_step (freshParser "  foo  =  bar baz  \n".toList recordHandler) []
        = some o ∧ o.ret = 0 ∧
      o.world = [⟨none, "foo".toList, "bar baz".toList⟩] ∧ o.parser.file = [] := by
  obtain ⟨o, h1, h2, _, h4, _, _, h7⟩ :=
    step_padded_roundtrip (freshParser "  foo  =  bar baz  \n".toList recordHandler) []
      recordHandler
      "foo".toList "bar baz".toList "  ".toList "  ".toList "  ".toList "  ".toList []
      rfl (by decide) (by decide) (by decide) (by decide) (by decide) (by decide) (by decide)
      (by decide) (by decide) (by decide) (by decide) (by decide) (by decide) (by decide)
      (by decide) (by decide) (by decide) (by decide)
  exact ⟨o, h1, h2, h4.trans (by decide), h7⟩

theorem skipLine_of_isCommentOrBlank (line : Str) (h : isCommentOrBlank line = true) :
    skipLine line = true := by
  have key : ∀ c : Char, isspace c = true →
      (!(!isspace c && c != '\n' && c != '\r')) = true := by
    intro c hc; simp [hc]
  unfold isCommentOrBlank at h
  unfold skipLine
  simp only [Bool.or_eq_true] at h ⊢
  rcases h with ((h | h) | h) | h
  · left
    cases line with
    | nil => simp at h
    | cons c cs =>
      simp only [List.head?_cons, beq_iff_eq, Option.some.injEq] at h
      rcases h with h | h <;> subst h <;> simp [charAt]
  · right
    cases line with
    | nil => rfl
    | cons c cs => simp at h
  · right
    rw [List.all_eq_true] at h ⊢
    intro c hc
    apply key
    have := h c hc
    simp only [Bool.or_eq_true, beq_iff_eq] at this
    rcases this with e | e <;> subst e <;> decide
  · right
    rw [List.all_eq_true] at h ⊢
    intro c hc
    exact key c (h c hc)

/-- C5: on an input of comment lines and blank lines only, the first step
returns 1 (end of input) without invoking the handler, and `activesection` is
what it was (absent for a fresh parser). -/
theorem step_comments_only (p : alini_parser_t σ κ) (w : σ) (lines : List Str)
    (hread : readsLines p.file lines [] = true)
    (hall : ∀ l ∈ lines, isCommentOrBlank l = true) :
    ∃ o, alini_parser_step p w = some o ∧ o.ret = 1 ∧ o.calls = [] ∧
      o.parser.activesection = p.activesection := by
  have hstep : alini_parser_step p w =
      some ⟨1, { p with file := [], linenumber := countLines lines.length 1 }, w, []⟩ := by
    change stepFrom { p with linenumber := 1 } w = _
    rw [stepFrom_skips lines { p with linenumber := 1 } w [] hread
      (fun l hl => skipLine_of_isCommentOrBlank l (hall l hl))]
    exact stepFrom_eof _ _ rfl
  exact ⟨_, hstep, rfl, rfl, rfl⟩

/-- C5, witness: two comments, an empty line and a line of spaces. -/
theorem step_comments_only_witness :
    ∃ o, alini_parser_step (freshParser "# a\n; b\n\r\n  \t \n".toList idleHandler) () = some o ∧
      o.ret = 1 ∧ o.calls = [] ∧
      o.parser.activesection = (freshParser "# a\n; b\n\r\n  \t \n".toList idleHandler).activesection :=
  step_comments_only (freshParser "# a\n; b\n\r\n  \t \n".toList idleHandler) ()
    ["# a\n".toList, "; b\n".toList, "\r\n".toList, "  \t \n".toList] (by decide) (by decide)

theorem stepFrom_malformed (p : alini_parser_t σ κ) (w : σ) (line : Str)
    (rest : List Char) (hfg : fgets 4095 p.file = some (line, rest))
    (hbad : isMalformed line = true) :
    stepFrom p w =
      some ⟨-1, { p with file := rest, linenumber := wrapInt (p.linenumber + 1) }, w, []⟩ := by
  rw [stepFrom_line p w line rest hfg]
  unfold isMalformed at hbad
  revert hbad
  cases skipLine line <;> cases isHeaderCandidate line <;> cases endsWithBracket line <;>
    cases hasEq line <;> simp

theorem startMid_malformed (p : alini_parser_t σ κ) (w : σ) (acc : List Call) (line : Str)
    (rest : List Char) (hfg : fgets 4095 p.file = some (line, rest))
    (hbad : isMalformed line = true) :
    startMid p w acc =
      some ⟨-1, { p with file := rest, linenumber := wrapInt (p.linenumber + 1) }, w, acc⟩ := by
  rw [startMid_line p w acc line rest hfg]
  unfold isMalformed at hbad
  revert hbad
  cases skipLine line <;> cases isHeaderCandidate line <;> cases endsWithBracket line <;>
    cases hasEq line <;> simp

/-- A malformed line ends the step with status -1 and ends `alini_parser_start`
with status -1, without any handler invocation. -/
theorem step_malformed (p : alini_parser_t σ κ) (w : σ) (line : Str) (rest : List Char)
    (hfg : fgets 4095 p.file = some (line, rest)) (hbad : isMalformed line = true) :
    alini_parser_step p w = some ⟨-1, { p with file := rest, linenumber := 2 }, w, []⟩ ∧
    (p.running = true →
      alini_parser_start p w = some ⟨-1, { p with file := rest, linenumber := 2 }, w, []⟩) := by
  constructor
  · exact stepFrom_malformed { p with linenumber := 1 } w line rest hfg hbad
  · intro hrun
    have h1 : alini_parser_start p w = startMid { p with linenumber := 1 } w [] :=
      startFrom_run p w [] hrun
    rw [h1]
    exact startMid_malformed { p with linenumber := 1 } w [] line rest hfg hbad

/-- C6: on a line that is not skipped and whose trimmed form is longer than 2
characters, begins with `[` and does not end with `]`, the step returns -1
without invoking the handler, keeps `activesection` and reads no further line;
`alini_parser_start` on a running parser returns -1 there as well. -/
theorem step_unclosed_header (p : alini_parser_t σ κ) (w : σ) (line : Str) (rest : List Char)
    (hfg : fgets 4095 p.file = some (line, rest))
    (hs : skipLine line = false)
    (hlen : 2 < (trim line).length) (hopen : (trim line).head? = some '[')
    (hclose : (trim line).getLast? ≠ some ']') :
    (∃ o, alini_parser_step p w = some o ∧ o.ret = -1 ∧ o.calls = [] ∧
      o.parser.activesection = p.activesection ∧ o.parser.file = rest) ∧
    (p.running = true →
      ∃ o, alini_parser_start p w = some o ∧ o.ret = -1 ∧ o.calls = [] ∧
        o.parser.activesection = p.activesection ∧ o.parser.file = rest) := by
  have hbad : isMalformed line = true := by
    simp [isMalformed, hs, isHeaderCandidate, endsWithBracket, hlen, hopen, hclose]
  obtain ⟨h1, h2⟩ := step_malformed p w line rest hfg hbad
  exact ⟨⟨_, h1, rfl, rfl, rfl, rfl⟩, fun hrun => ⟨_, h2 hrun, rfl, rfl, rfl, rfl⟩⟩

/-- C6, witness: the line `[section`. -/
theorem step_unclosed_header_witness :
    (∃ o, alini_parser_step (freshParser "[section\nk=v\n".toList idleHandler) () = some o ∧
      o.ret = -1 ∧ o.calls = [] ∧
      o.parser.activesection = (freshParser "[section\nk=v\n".toList idleHandler).activesection ∧
      o.parser.file = "k=v\n".toList) ∧
    (∃ o, alini_parser_start (freshParser "[section\nk=v\n".toList idleHandler) () = some o ∧
      o.ret = -1 ∧ o.calls = [] ∧
      o.parser.activesection = (freshParser "[section\nk=v\n".toList idleHandler).activesection ∧
      o.parser.file = "k=v\n".toList) :=
  ⟨(step_unclosed_header (freshParser "[section\nk=v\n".toList idleHandler) ()
      "[section\n".toList "k=v\n".toList (by decide) (by decide) (by decide) (by decide)
      (by decide)).1,
   (step_unclosed_header (freshParser "[section\nk=v\n".toList idleHandler) ()
      "[section\n".toList "k=v\n".toList (by decide) (by decide) (by decide) (by decide)
      (by decide)).2 rfl⟩

/-- C7: on a line that is not skipped, is not a header candidate and has no
`=`, the step returns -1 without invoking the handler, keeps `activesection`
and reads no further line. -/
theorem step_missing_equals (p : alini_parser_t σ κ) (w : σ) (line : Str) (rest : List Char)
    (hfg : fgets 4095 p.file = some (line, rest))
    (hs : skipLine line = false)
    (hc : (trim line).length ≤ 2 ∨ (trim line).head? ≠ some '[')
    (he : '=' ∉ line) :
    ∃ o, alini_parser_step p w = some o ∧ o.ret = -1 ∧ o.calls = [] ∧
      o.parser.activesection = p.activesection ∧ o.parser.file = rest := by
  have hcand : isHeaderCandidate line = false := by
    unfold isHeaderCandidate
    rcases hc with hc | hc
    · simp [show ¬ 2 < (trim line).length by omega]
    · simp [hc]
  have hbad : isMalformed line = true := by
    simp [isMalformed, hs, hcand, hasEq, he]
  exact ⟨_, (step_malformed p w line rest hfg hbad).1, rfl, rfl, rfl, rfl⟩

/-- C7, witness: the line `justtext`. -/
theorem step_missing_equals_witness :
    ∃ o, alini_parser_step (freshParser "justtext\nk=v\n".toList idleHandler) () = some o ∧
      o.ret = -1 ∧ o.calls = [] ∧
      o.parser.activesection = (freshParser "justtext\nk=v\n".toList idleHandler).activesection ∧
      o.parser.file = "k=v\n".toList :=
  step_missing_equals (freshParser "justtext\nk=v\n".toList idleHandler) ()
    "justtext\n".toList "k=v\n".toList (by decide) (by decide) (by decide) (by decide)

/-- C9: when the handler calls `alini_parser_halt` during its `n`-th invocation
(and not before), `alini_parser_start` returns 0 after exactly `n` invocations:
the `n`-th record is delivered in full, nothing after its line is read
(whatever follows, malformed or not), and the parser is left halted.
`alini_parser_halt` only clears the running flag. -/
theorem start_halted_by_handler (p : alini_parser_t σ κ) (w : σ)
    (h : alini_parser_foundkvpair_callback σ κ) (before : List Str) (l : Str)
    (rest : List Char) (n : Nat)
    (hcb : p.foundkvpair_callback = some h) (hrun : p.running = true)
    (hread : readsLines p.file (before ++ [l]) rest = true)
    (hgood : ∀ x ∈ before, isMalformed x = false)
    (hkv : isKeyValue l = true)
    (hn : n = (kvCalls p.activesection before).length + 1)
    (hfree : haltFree h w p.ctx (kvCalls p.activesection before) = true)
    (hhalt : (h (feed h w p.ctx (kvCalls p.activesection before)).1
                (feed h w p.ctx (kvCalls p.activesection before)).2
                (sectionAfter p.activesection before) (keyOf l) (valueOf l)).halt = true) :
    1 ≤ n ∧
    (∃ o, alini_parser_start p w = some o ∧ o.ret = 0 ∧ o.calls.length = n ∧
      o.calls = kvCalls p.activesection before ++
        [⟨sectionAfter p.activesection before, keyOf l, valueOf l⟩] ∧
      o.parser.file = rest ∧ o.parser.running = false) ∧
    (∀ q : alini_parser_t σ κ, alini_parser_halt q = { q with running := false }) := by
  refine ⟨by omega, ?_, fun q => rfl⟩
  rw [readsLines_append] at hread
  obtain ⟨mid, hr1, hr2⟩ := hread
  rw [readsLines_cons] at hr2
  obtain ⟨r, hfg, hr3⟩ := hr2
  rw [readsLines_nil] at hr3
  subst hr3
  obtain ⟨m, hm⟩ := start_lines h before p w mid hcb hrun hr1 hgood hfree
  unfold isKeyValue at hkv
  simp only [Bool.and_eq_true, Bool.not_eq_true'] at hkv
  obtain ⟨⟨hs, hc⟩, he⟩ := hkv
  rw [startMid_line _ _ _ l r hfg] at hm
  simp only [hs, hc, he, if_true, if_false, Bool.false_eq_true, hcb] at hm
  rw [invokeCallback_eq] at hm
  simp only [hhalt, Bool.not_true, Bool.and_false] at hm
  rw [startFrom_stop _ _ _ _ (Or.inl rfl)] at hm
  exact ⟨_, hm, rfl, by simp [hn], rfl, rfl, rfl⟩

/-- C9, witness: the handler halts during its second invocation; the third
key-value line and the malformed line after it are never read. -/
theorem start_halted_by_handler_witness :
    1 ≤ 2 ∧
    (∃ o, alini_parser_start
        (freshParser "; c\n[server]\nhost = localhost\nport= 8080\n[client\nx=1\n".toList
          (haltAt 2)) 0 = some o ∧
      o.ret = 0 ∧ o.calls.length = 2 ∧
      o.calls = [⟨some "server".toList, "host".toList, "localhost".toList⟩,
                 ⟨some "server".toList, "port".toList, "8080".toList⟩] ∧
      o.parser.file = "[client\nx=1\n".toList ∧ o.parser.running = false) := by
  obtain ⟨h0, ⟨o, h1, h2, h3, h4, h5, h6⟩, _⟩ := start_halted_by_handler
    (freshParser "; c\n[server]\nhost = localhost\nport= 8080\n[client\nx=1\n".toList
      (haltAt 2)) 0 (haltAt 2)
    ["; c\n".toList, "[server]\n".toList, "host = localhost\n".toList] "port= 8080\n".toList
    "[client\nx=1\n".toList 2 rfl rfl (by decide) (by decide) (by decide) (by decide)
    (by decide) (by decide)
  exact ⟨h0, o, h1, h2, h3, h4.trans (by decide), h5, h6⟩

/-- C10, the code at the header `[ ]`: the interior is only whitespace, the
line passes the length test, and `activesection` becomes the empty string; a
key-value line that follows is delivered with the empty section. -/
theorem step_blank_header_empty_section :
    (alini_parser_step (freshParser "[ ]\n".toList idleHandler) ()).map
        (fun o => (o.ret, o.calls, o.parser.activesection)) = some (1, [], some []) ∧
    (alini_parser_step (freshParser "[ ]\nk=v\n".toList idleHandler) ()).map
        (fun o => (o.ret, o.calls, o.parser.activesection))
      = some (0, [⟨some [], "k".toList, "v".toList⟩], some []) := by
  decide

/-- C11, the code on two consecutive steps: after the first step, which reads
two comment lines and a key-value line, the line number is 4; after the second
step, which reads one key-value line, it is 2.  Every step sets the counter
back to 1 before it reads. -/
theorem step_linenumber_decreases :
    (alini_parser_step (freshParser "#\n#\na=1\nb=2\n".toList idleHandler) ()).map
        (fun o => (o.ret, alini_parser_get_linenumber o.parser)) = some (0, 4) ∧
    ((alini_parser_step (freshParser "#\n#\na=1\nb=2\n".toList idleHandler) ()).bind
        (fun o => alini_parser_step o.parser o.world)).map
        (fun o => (o.ret, alini_parser_get_linenumber o.parser)) = some (0, 2) := by
  decide

theorem trim_idempotent (s : Str) : trim (trim s) = trim s := by
  have hdrop : List.dropWhile isspace (trim s) = trim s := by
    cases ht : trim s with
    | nil => rfl
    | cons x t =>
      have hx : isspace x = false := by
        have h1 : (trim s).head? = some x := by rw [ht]; rfl
        rw [head?_trim] at h1
        have h2 := List.head?_dropWhile_not isspace s
        rw [h1] at h2
        simpa using h2
      exact List.dropWhile_cons_of_neg (by simp [hx])
  have hr : List.rdropWhile isspace (trim s) = trim s := by
    unfold trim
    exact List.rdropWhile_idempotent _ _
  unfold trim at hdrop ⊢
  rw [hdrop]
  exact hr

/-- C12: trimming is idempotent.  Applying `stripws` to the whole of a result
of `stripws` gives it back, and `stripws` applied to the whole of a string that
neither begins nor ends with whitespace gives the string back. -/
theorem stripws_idempotent (s : Str) (len : Nat) (h : len ≤ s.length) :
    stripws (stripws s len) (stripws s len).length = stripws s len ∧
    (∀ t : Str, (∀ c, t.head? = some c → isspace c = false) →
      (∀ c, t.getLast? = some c → isspace c = false) → stripws t t.length = t) := by
  constructor
  · rw [stripws_full, stripws_eq_trim s len h, trim_idempotent]
  · intro t h1 h2
    rw [stripws_full]
    have := trim_padded [] t [] (by simp) (by simp) h1 h2
    simpa using this

/-- C12, witness: trimming `  a b  ` inside a longer buffer, twice. -/
theorem stripws_idempotent_witness :
    stripws (stripws "  a b  =c".toList 7) (stripws "  a b  =c".toList 7).length
        = stripws "  a b  =c".toList 7 ∧
    stripws "a b".toList "a b".toList.length = "a b".toList :=
  ⟨(stripws_idempotent "  a b  =c".toList 7 (by decide)).1,
   (stripws_idempotent "  a b  =c".toList 7 (by decide)).2 "a b".toList (by decide) (by decide)⟩

/-- C13: for `len ≤ strlen(s)`, `stripws(s, len)` is the region `s[0..len)`
without its leading and trailing whitespace.  Hence the characters from index
`len` on do not influence it, and a region of whitespace only gives the empty
string. -/
theorem stripws_region (s : Str) (len : Nat) (h : len ≤ s.length) :
    stripws s len = trim (s.take len) ∧
    (∀ s2 : Str, len ≤ s2.length → s2.take len = s.take len → stripws s2 len = stripws s len) ∧
    ((∀ c ∈ s.take len, isspace c = true) → stripws s len = []) := by
  refine ⟨stripws_eq_trim s len h, ?_, ?_⟩
  · intro s2 h2 heq
    rw [stripws_eq_trim s2 len h2, stripws_eq_trim s len h, heq]
  · intro hall
    rw [stripws_eq_trim s len h]
    unfold trim
    have : List.dropWhile isspace (s.take len) = [] := by
      rw [List.dropWhile_eq_nil_iff]; exact hall
    rw [this]
    rfl

/-- C13, witness: the region of length 3 of `  \tx=y` is whitespace only, and
the region of length 0 is empty. -/
theorem stripws_region_witness :
    stripws "  \tx=y".toList 3 = trim ("  \tx=y".toList.take 3) ∧
    stripws "  \tx=y".toList 3 = [] ∧
    stripws "abc".toList 0 = [] :=
  ⟨(stripws_region "  \tx=y".toList 3 (by decide)).1,
   (stripws_region "  \tx=y".toList 3 (by decide)).2.2 (by decide),
   (stripws_region "abc".toList 0 (by decide)).2.2 (by decide)⟩

/-- C14, as the code has it: `alini_parser_create` returns -1 with no parser
when an allocation fails, 1 with no parser whenever `fopen` fails, whatever the
reason of the failure, and 0 with a parser that has no section and is running
when the file is opened. -/
theorem create_outcomes (env : CreateEnv) (null : κ) (path : Str) :
    (env.callocOk = false ∨ env.strdupOk = false →
      (alini_parser_create env null path : Int × Option (alini_parser_t σ κ)) = (-1, none)) ∧
    (env.callocOk = true → env.strdupOk = true → ∀ e, env.fopen path = .error e →
      (alini_parser_create env null path : Int × Option (alini_parser_t σ κ)) = (1, none)) ∧
    (env.callocOk = true → env.strdupOk = true → ∀ content, env.fopen path = .ok content →
      ∃ p : alini_parser_t σ κ, alini_parser_create env null path = (0, some p) ∧
        p.activesection = none ∧ p.running = true ∧ p.file = content ∧
        p.foundkvpair_callback = none) := by
  refine ⟨?_, ?_, ?_⟩
  · intro h
    unfold alini_parser_create
    rcases h with h | h
    · simp [h]
    · cases hc : env.callocOk <;> simp [h]
  · intro h1 h2 e he
    unfold alini_parser_create
    simp [h1, h2, he]
  · intro h1 h2 content hc
    unfold alini_parser_create
    simp [h1, h2, hc]

/-- C14, witness: a missing file and a file that may not be read both give
status 1; the readable file gives status 0 and a running parser without
section. -/
theorem create_outcomes_witness :
    (alini_parser_create exampleEnv () "none.ini".toList :
        Int × Option (alini_parser_t Unit Unit)) = (1, none) ∧
    (alini_parser_create exampleEnv () "secret.ini".toList :
        Int × Option (alini_parser_t Unit Unit)) = (1, none) ∧
    (∃ p : alini_parser_t Unit Unit,
      alini_parser_create exampleEnv () "conf.ini".toList = (0, some p) ∧
        p.activesection = none ∧ p.running = true ∧ p.file = exampleInput ∧
        p.foundkvpair_callback = none) :=
  ⟨(create_outcomes exampleEnv () "none.ini".toList).2.1 rfl rfl .noSuchFile rfl,
   (create_outcomes exampleEnv () "secret.ini".toList).2.1 rfl rfl .permissionDenied rfl,
   (create_outcomes exampleEnv () "conf.ini".toList).2.2 rfl rfl exampleInput rfl⟩

/-- C14, counterexample: a file that exists but may not be read gives the
status 1 of a missing file, not a negative status. -/
theorem create_permission_counterexample :
    exampleEnv.fopen "secret.ini".toList = .error .permissionDenied ∧
    (alini_parser_create exampleEnv () "secret.ini".toList :
        Int × Option (alini_parser_t Unit Unit)).1 = 1 ∧
    ¬ (alini_parser_create exampleEnv () "secret.ini".toList :
        Int × Option (alini_parser_t Unit Unit)).1 < 0 :=
  ⟨rfl, by decide, by decide⟩

/-- The step never replaces the handler, and it changes the stored context only
through the handler calling `alini_parser_set_context`. -/
theorem stepLoop_context (f : Nat) (p : alini_parser_t σ κ) (w : σ) (o : Outcome σ κ)
    (h : stepLoop f p w = some o) :
    o.parser.foundkvpair_callback = p.foundkvpair_callback ∧
    ((∀ cb, p.foundkvpair_callback = some cb → ∀ w c s k v, (cb w c s k v).newctx = none) →
      o.parser.ctx = p.ctx) := by
  induction f generalizing p with
  | zero => simp [stepLoop] at h
  | succ f ih =>
    cases hfg : fgets 4095 p.file with
    | none =>
      rw [stepLoop] at h
      simp only [hfg] at h
      cases h
      exact ⟨rfl, fun _ => rfl⟩
    | some lr =>
      obtain ⟨line, rest⟩ := lr
      rw [stepLoop_succ f p w line rest hfg] at h
      split_ifs at h with h1 h2 h3 h4
      · have := ih _ h
        exact this
      · have := ih _ h
        exact this
      · cases h; exact ⟨rfl, fun _ => rfl⟩
      · cases hcb : p.foundkvpair_callback with
        | none => simp [hcb] at h
        | some cb =>
          simp only [hcb] at h
          cases h
          refine ⟨?_, fun hno => ?_⟩
          · rw [(invokeCallback_file _ _ _ _ _).2.2.2.1]
          · rw [invokeCallback_eq]
            simp [hno cb rfl]
      · cases h; exact ⟨rfl, fun _ => rfl⟩

theorem startLoop_context (f : Nat) (p : alini_parser_t σ κ) (w : σ) (ret : Int)
    (acc : List Call) (o : Outcome σ κ) (h : startLoop f p w ret acc = some o)
    (hno : ∀ cb, p.foundkvpair_callback = some cb → ∀ w c s k v, (cb w c s k v).newctx = none) :
    o.parser.ctx = p.ctx := by
  induction f generalizing p w ret acc with
  | zero => simp [startLoop] at h
  | succ f ih =>
    rw [startLoop] at h
    by_cases hc : (p.running && ret == 0) = true
    · rw [if_pos hc] at h
      cases hs : alini_parser_step p w with
      | none => simp [hs] at h
      | some o1 =>
        have hctx := stepLoop_context _ _ _ _ hs
        simp only [] at hctx
        simp only [hs] at h
        by_cases hneg : o1.ret < 0
        · rw [if_pos hneg] at h
          cases h
          exact hctx.2 hno
        · rw [if_neg hneg] at h
          rw [ih _ _ _ _ h (by rw [hctx.1]; exact hno)]
          exact hctx.2 hno
    · rw [if_neg hc] at h
      cases h
      rfl

/-- C15: the context is stored and returned verbatim.  `alini_parser_set_context`
changes no other field; `alini_parser_halt` and
`alini_parser_setcallback_foundkvpair` leave the context as it is; so do
`alini_parser_step` and `alini_parser_start`, whose code never writes the
field: the context after them differs only if the handler itself called
`alini_parser_set_context`. -/
theorem context_verbatim (p : alini_parser_t σ κ) (c : κ) (w : σ) :
    alini_parser_get_context (alini_parser_set_context p c) = c ∧
    ((alini_parser_set_context p c).foundkvpair_callback = p.foundkvpair_callback ∧
      (alini_parser_set_context p c).activesection = p.activesection ∧
      (alini_parser_set_context p c).running = p.running ∧
      (alini_parser_set_context p c).linenumber = p.linenumber ∧
      (alini_parser_set_context p c).file = p.file ∧
      (alini_parser_set_context p c).path = p.path) ∧
    alini_parser_get_context (alini_parser_halt p) = alini_parser_get_context p ∧
    (∀ cb, alini_parser_get_context (alini_parser_setcallback_foundkvpair p cb).2
      = alini_parser_get_context p) ∧
    (∀ o, alini_parser_step p w = some o →
      (∀ cb, p.foundkvpair_callback = some cb → ∀ w c s k v, (cb w c s k v).newctx = none) →
      alini_parser_get_context o.parser = alini_parser_get_context p) ∧
    (∀ o, alini_parser_start p w = some o →
      (∀ cb, p.foundkvpair_callback = some cb → ∀ w c s k v, (cb w c s k v).newctx = none) →
      alini_parser_get_context o.parser = alini_parser_get_context p) := by
  refine ⟨rfl, ⟨rfl, rfl, rfl, rfl, rfl, rfl⟩, rfl, fun _ => rfl, ?_, ?_⟩
  · intro o ho hno
    exact (stepLoop_context _ _ _ _ ho).2 hno
  · intro o ho hno
    exact startLoop_context _ _ _ _ _ _ ho hno

/-- C15, witness: storing 42 gives 42 back, and a step and a whole run leave
the stored 7 in place. -/
theorem context_verbatim_witness :
    alini_parser_get_context (alini_parser_set_context (numberedParser "a=1\nb=2\n".toList) 42)
      = 42 ∧
    (∃ o, alini_parser_step (numberedParser "a=1\nb=2\n".toList) () = some o ∧
      alini_parser_get_context o.parser = 7) ∧
    (∃ o, alini_parser_start (numberedParser "a=1\nb=2\n".toList) () = some o ∧
      alini_parser_get_context o.parser = 7) :=
  ⟨(context_verbatim (numberedParser "a=1\nb=2\n".toList) 42 ()).1,
   ⟨_, rfl, (context_verbatim (numberedParser "a=1\nb=2\n".toList) 42 ()).2.2.2.2.1 _ rfl
      (fun cb hcb w c s k v => by cases hcb; rfl)⟩,
   ⟨_, rfl, (context_verbatim (numberedParser "a=1\nb=2\n".toList) 42 ()).2.2.2.2.2 _ rfl
      (fun cb hcb w c s k v => by cases hcb; rfl)⟩⟩

/-- What a step that returns has done: it has read some lines, counted each of
them, and it ended at the end of the input, at a malformed line, or at a
key-value line for which it invoked the handler once. -/
theorem stepLoop_trace (f : Nat) (p : alini_parser_t σ κ) (w : σ) (o : Outcome σ κ)
    (h : stepLoop f p w = some o) :
    ∃ lines, readsLines p.file lines o.parser.file = true ∧
      o.parser.linenumber = countLines lines.length p.linenumber ∧
      ((o.ret = 1 ∧ o.calls = [] ∧ o.parser.file = []) ∨
       (o.ret = -1 ∧ o.calls = [] ∧ ∃ pre bad, lines = pre ++ [bad] ∧ isMalformed bad = true) ∨
       (o.ret = 0 ∧ ∃ pre l, lines = pre ++ [l] ∧ isKeyValue l = true ∧
          o.calls = [⟨sectionAfter p.activesection pre, keyOf l, valueOf l⟩])) := by
  induction f generalizing p with
  | zero => simp [stepLoop] at h
  | succ f ih =>
    cases hfg : fgets 4095 p.file with
    | none =>
      rw [stepLoop] at h
      simp only [hfg] at h
      cases h
      exact ⟨[], by simp [readsLines], rfl, Or.inl ⟨rfl, rfl, fgets_eq_none.mp hfg⟩⟩
    | some lr =>
      obtain ⟨line, rest⟩ := lr
      have one : readsLines p.file [line] rest = true :=
        (readsLines_cons _ _ _ _).mpr ⟨rest, hfg, by simp [readsLines]⟩
      rw [stepLoop_succ f p w line rest hfg] at h
      split_ifs at h with h1 h2 h3 h4
      · obtain ⟨ls, hr, hn, hcase⟩ := ih _ h
        refine ⟨line :: ls, (readsLines_cons _ _ _ _).mpr ⟨rest, hfg, hr⟩, ?_, ?_⟩
        · exact hn
        · rcases hcase with hc | ⟨hc, hc2, pre, bad, hl, hbad⟩ | ⟨hc, pre, l, hl, hkv, hcalls⟩
          · exact Or.inl hc
          · exact Or.inr (Or.inl ⟨hc, hc2, line :: pre, bad, by simp [hl], hbad⟩)
          · refine Or.inr (Or.inr ⟨hc, line :: pre, l, by simp [hl], hkv, ?_⟩)
            simp only [sectionAfter, h1, if_true]
            exact hcalls
      · obtain ⟨ls, hr, hn, hcase⟩ := ih _ h
        refine ⟨line :: ls, (readsLines_cons _ _ _ _).mpr ⟨rest, hfg, hr⟩, ?_, ?_⟩
        · exact hn
        · rcases hcase with hc | ⟨hc, hc2, pre, bad, hl, hbad⟩ | ⟨hc, pre, l, hl, hkv, hcalls⟩
          · exact Or.inl hc
          · exact Or.inr (Or.inl ⟨hc, hc2, line :: pre, bad, by simp [hl], hbad⟩)
          · refine Or.inr (Or.inr ⟨hc, line :: pre, l, by simp [hl], hkv, ?_⟩)
            simp only [sectionAfter, h1, h2, h3, if_true, if_false, Bool.and_self,
              Bool.false_eq_true]
            exact hcalls
      · cases h
        exact ⟨[line], one, rfl, Or.inr (Or.inl ⟨rfl, rfl, [], line, rfl,
          by simp [isMalformed, h1, h2, h3]⟩)⟩
      · cases hcb : p.foundkvpair_callback with
        | none => simp [hcb] at h
        | some cb =>
          simp only [hcb] at h
          cases h
          refine ⟨[line], ?_, ?_, Or.inr (Or.inr ⟨rfl, [], line, rfl, ?_, rfl⟩)⟩
          · rw [(invokeCallback_file _ _ _ _ _).1]; exact one
          · rw [(invokeCallback_file _ _ _ _ _).2.2.1]; rfl
          · simp [isKeyValue, h1, h2, h4]
      · cases h
        exact ⟨[line], one, rfl, Or.inr (Or.inl ⟨rfl, rfl, [], line, rfl,
          by simp [isMalformed, h1, h2, h4]⟩)⟩

/-- With a handler registered, the loop of the step returns whenever its fuel
exceeds the number of bytes left. -/
theorem stepLoop_total (f : Nat) (p : alini_parser_t σ κ) (w : σ)
    (h : alini_parser_foundkvpair_callback σ κ) (hcb : p.foundkvpair_callback = some h)
    (hf : p.file.length < f) : ∃ o, stepLoop f p w = some o := by
  induction f generalizing p with
  | zero => omega
  | succ f ih =>
    cases hfg : fgets 4095 p.file with
    | none =>
      rw [stepLoop]
      simp [hfg]
    | some lr =>
      obtain ⟨line, rest⟩ := lr
      have hlt := fgets_rest_lt hfg
      rw [stepLoop_succ f p w line rest hfg]
      split_ifs
      · exact ih _ hcb (by simp; omega)
      · exact ih _ hcb (by simp; omega)
      · exact ⟨_, rfl⟩
      · simp [hcb]
      · exact ⟨_, rfl⟩

theorem readsLines_length (lines : List Str) :
    ∀ (file rest : List Char), readsLines file lines rest = true →
      rest.length + lines.length ≤ file.length := by
  induction lines with
  | nil =>
    intro file rest h
    rw [readsLines_nil] at h
    simp [h]
  | cons l ls ih =>
    intro file rest h
    rw [readsLines_cons] at h
    obtain ⟨r, hfg, hr⟩ := h
    have h1 := fgets_rest_lt hfg
    have h2 := ih r rest hr
    simp only [List.length_cons]
    omega

/-- The lines read between two states of the stream are determined by these
states. -/
theorem readsLines_unique (l1 : List Str) :
    ∀ (l2 : List Str) (file rest : List Char), readsLines file l1 rest = true →
      readsLines file l2 rest = true → l2 = l1 := by
  induction l1 with
  | nil =>
    intro l2 file rest h1 h2
    rw [readsLines_nil] at h1
    subst h1
    cases l2 with
    | nil => rfl
    | cons x xs =>
      have := readsLines_length _ _ _ h2
      simp at this
  | cons l ls ih =>
    intro l2 file rest h1 h2
    cases l2 with
    | nil =>
      rw [readsLines_nil] at h2
      subst h2
      have := readsLines_length _ _ _ h1
      simp at this
    | cons x xs =>
      rw [readsLines_cons] at h1 h2
      obtain ⟨r1, hf1, hr1⟩ := h1
      obtain ⟨r2, hf2, hr2⟩ := h2
      rw [hf1] at hf2
      simp only [Option.some.injEq, Prod.mk.injEq] at hf2
      obtain ⟨e1, e2⟩ := hf2
      subst e1 e2
      rw [ih xs r1 rest hr1 hr2]

/-- C16, as the code has it: the line counter is a C `int`.  After a step that
read `k` physical lines the line number is `k + 1` reduced to the range of a
32-bit `int`, whatever it was before the step; it is exactly `k + 1` as long as
`k + 1` is below `2^31`.  At a malformed line it is one more than the rank of
that line among the lines read by the step (reduced likewise); when the step
finds the end of the input at once it is 1. -/
theorem step_linenumber (p : alini_parser_t σ κ) (w : σ) :
    (∀ o, alini_parser_step p w = some o →
      ∃ lines, readsLines p.file lines o.parser.file = true ∧
        (∀ lines2, readsLines p.file lines2 o.parser.file = true → lines2 = lines) ∧
        alini_parser_get_linenumber o.parser = wrapInt ((lines.length : Int) + 1) ∧
        ((lines.length : Int) + 1 < 2147483648 →
          alini_parser_get_linenumber o.parser = (lines.length : Int) + 1) ∧
        (o.ret = -1 → ∃ pre bad, lines = pre ++ [bad] ∧ isMalformed bad = true ∧
          alini_parser_get_linenumber o.parser = wrapInt (((pre.length : Int) + 1) + 1))) ∧
    (∀ h, p.foundkvpair_callback = some h → ∃ o, alini_parser_step p w = some o) ∧
    (p.file = [] →
      ∃ o, alini_parser_step p w = some o ∧ o.ret = 1 ∧
        alini_parser_get_linenumber o.parser = 1) := by
  refine ⟨?_, ?_, ?_⟩
  · intro o ho
    obtain ⟨lines, hr, hn, hcase⟩ := stepLoop_trace _ _ _ _ ho
    simp only [] at hr hn hcase
    have hnum : alini_parser_get_linenumber o.parser = wrapInt ((lines.length : Int) + 1) := by
      unfold alini_parser_get_linenumber
      rw [hn, countLines_one]
    refine ⟨lines, hr, fun l2 h2 => readsLines_unique lines l2 _ _ hr h2, hnum, ?_, ?_⟩
    · intro hsmall
      rw [hnum]
      exact wrapInt_of_range _ (by omega) hsmall
    · intro hret
      rcases hcase with ⟨hc, _⟩ | ⟨_, _, pre, bad, hl, hbad⟩ | ⟨hc, _⟩
      · rw [hret] at hc; cases hc
      · refine ⟨pre, bad, hl, hbad, ?_⟩
        rw [hnum, hl]
        congr 1
        simp
      · rw [hret] at hc; cases hc
  · intro h hcb
    exact stepLoop_total _ _ w h hcb (by simp)
  · intro hfile
    exact ⟨_, stepFrom_eof { p with linenumber := 1 } w hfile, rfl, rfl⟩

/-- C16, witness: on a parser whose line number was 4, a step that reads a
comment and a malformed line leaves the line number at 3. -/
theorem step_linenumber_witness :
    ∃ o lines,
      alini_parser_step
        { freshParser "# c\nbad\nx=1\n".toList idleHandler with linenumber := 4 } () = some o ∧
      o.ret = -1 ∧
      readsLines "# c\nbad\nx=1\n".toList lines o.parser.file = true ∧
      alini_parser_get_linenumber o.parser = (lines.length : Int) + 1 ∧
      alini_parser_get_linenumber o.parser = 3 := by
  obtain ⟨o, ho, hret, hnum⟩ :
      ∃ o, alini_parser_step
          { freshParser "# c\nbad\nx=1\n".toList idleHandler with linenumber := 4 } () = some o ∧
        o.ret = -1 ∧ alini_parser_get_linenumber o.parser = 3 := ⟨_, rfl, rfl, by decide⟩
  obtain ⟨lines, h1, _, h3, h4, _⟩ :=
    (step_linenumber
      { freshParser "# c\nbad\nx=1\n".toList idleHandler with linenumber := 4 } ()).1 o ho
  have hsmall : (lines.length : Int) + 1 < 2147483648 := by
    have hlen : o.parser.file.length + lines.length ≤ "# c\nbad\nx=1\n".toList.length :=
      readsLines_length _ _ _ h1
    have hfile : "# c\nbad\nx=1\n".toList.length = 12 := by decide
    rw [hfile] at hlen
    omega
  exact ⟨o, lines, ho, hret, h1, h4 hsmall, hnum⟩

theorem readsLines_newlines (n : Nat) :
    readsLines (List.replicate n '\n') (List.replicate n ['\n']) [] = true := by
  induction n with
  | zero => rfl
  | succ n ih =>
    rw [List.replicate_succ, List.replicate_succ, readsLines_cons]
    exact ⟨List.replicate n '\n', by simp [fgets, fgetsChars, cstr, NUL], ih⟩

/-- One step over `n` empty lines reads all of them and counts each. -/
theorem step_newlines (n : Nat) :
    ∃ o, alini_parser_step (freshParser (List.replicate n '\n') idleHandler) () = some o ∧
      readsLines (List.replicate n '\n') (List.replicate n ['\n']) o.parser.file = true ∧
      alini_parser_get_linenumber o.parser = wrapInt ((n : Int) + 1) := by
  have hskip : ∀ l ∈ List.replicate n ['\n'], skipLine l = true := by
    intro l hl
    rw [List.eq_of_mem_replicate hl]
    decide
  have hstep : alini_parser_step (freshParser (List.replicate n '\n') idleHandler) ()
      = some ⟨1, { freshParser (List.replicate n '\n') idleHandler with
                    file := [],
                    linenumber := countLines (List.replicate n ['\n']).length 1 },
              (), []⟩ := by
    change stepFrom
      { freshParser (List.replicate n '\n') idleHandler with linenumber := 1 } () = _
    rw [stepFrom_skips (List.replicate n ['\n'])
      { freshParser (List.replicate n '\n') idleHandler with linenumber := 1 } () []
      (readsLines_newlines n) hskip]
    exact stepFrom_eof _ _ rfl
  refine ⟨_, hstep, readsLines_newlines n, ?_⟩
  change countLines (List.replicate n ['\n']).length 1 = _
  rw [List.length_replicate, countLines_one]

/-- C16, counterexample: on an input of `2^31 - 1` empty lines one step reads
all of them, and the line number afterwards is `-2^31`, not `2^31`. -/
theorem step_linenumber_counterexample :
    ∃ o, alini_parser_step (freshParser (List.replicate 2147483647 '\n') idleHandler) ()
        = some o ∧
      readsLines (List.replicate 2147483647 '\n') (List.replicate 2147483647 ['\n'])
        o.parser.file = true ∧
      (List.replicate 2147483647 ['\n']).length = 2147483647 ∧
      alini_parser_get_linenumber o.parser = -2147483648 ∧
      alini_parser_get_linenumber o.parser ≠ 2147483647 + 1 := by
  have hw : wrapInt (((2147483647 : Nat) : Int) + 1) = -2147483648 := by
    unfold wrapInt
    norm_num
  obtain ⟨o, h1, h2, h3⟩ := step_newlines 2147483647
  refine ⟨o, h1, h2, List.length_replicate _ _, h3.trans hw, ?_⟩
  rw [h3, hw]
  norm_num

/-- C17: a line that is not skipped and whose trimmed form `t` is longer than 2
characters, begins with `[` and ends with `]` makes `activesection` the
interior of `t`, trimmed, in place of the previous section.  The step goes on
from there: a key-value line that follows is delivered with that section, and
at the end of the input the section is left in the parser. -/
theorem header_section_name (p : alini_parser_t σ κ) (w : σ) (line : Str) (rest : List Char)
    (hfg : fgets 4095 p.file = some (line, rest))
    (hs : skipLine line = false)
    (hlen : 2 < (trim line).length) (hopen : (trim line).head? = some '[')
    (hclose : (trim line).getLast? = some ']') :
    alini_parser_step p w =
        stepLoop (rest.length + 1)
          { p with file := rest, linenumber := 2,
                   activesection := some (trim ((trim line).drop 1).dropLast) } w ∧
    (∀ h line2 rest2, p.foundkvpair_callback = some h →
      fgets 4095 rest = some (line2, rest2) → isKeyValue line2 = true →
      ∃ o, alini_parser_step p w = some o ∧ o.ret = 0 ∧
        o.calls = [⟨some (trim ((trim line).drop 1).dropLast), keyOf line2, valueOf line2⟩] ∧
        o.parser.activesection = some (trim ((trim line).drop 1).dropLast)) ∧
    (rest = [] →
      ∃ o, alini_parser_step p w = some o ∧ o.ret = 1 ∧ o.calls = [] ∧
        o.parser.activesection = some (trim ((trim line).drop 1).dropLast)) := by
  have hc : isHeaderCandidate line = true := by simp [isHeaderCandidate, hlen, hopen]
  have hb : endsWithBracket line = true := by simp [endsWithBracket, hclose]
  have hstep : alini_parser_step p w =
      stepFrom { p with file := rest, linenumber := 2,
                        activesection := some (trim ((trim line).drop 1).dropLast) } w := by
    change stepFrom { p with linenumber := 1 } w = _
    rw [stepFrom_line { p with linenumber := 1 } w line rest hfg]
    simp only [hs, hc, hb, if_true, if_false, Bool.false_eq_true]
    rfl
  refine ⟨hstep, ?_, ?_⟩
  · intro h line2 rest2 hcb hfg2 hkv
    unfold isKeyValue at hkv
    simp only [Bool.and_eq_true, Bool.not_eq_true'] at hkv
    obtain ⟨⟨h1, h2⟩, h3⟩ := hkv
    rw [hstep, stepFrom_line _ w line2 rest2 hfg2]
    simp only [h1, h2, h3, if_true, if_false, Bool.false_eq_true, hcb]
    refine ⟨_, rfl, rfl, rfl, ?_⟩
    rw [(invokeCallback_file _ _ _ _ _).2.1]
  · intro hr
    subst hr
    rw [hstep, stepFrom_eof _ _ rfl]
    exact ⟨_, rfl, rfl, rfl, rfl⟩

/-- C17, witness: `  [ my section ]  ` gives `my section` and `[[a]]` gives
`[a]`, each in place of the earlier section `old`. -/
theorem header_section_name_witness :
    (∃ o, alini_parser_step
        { freshParser "  [ my section ]  \nk=v\n".toList idleHandler with
            activesection := some "old".toList } () = some o ∧ o.ret = 0 ∧
      o.calls = [⟨some (trim ((trim "  [ my section ]  \n".toList).drop 1).dropLast),
                  keyOf "k=v\n".toList, valueOf "k=v\n".toList⟩] ∧
      o.parser.activesection
        = some (trim ((trim "  [ my section ]  \n".toList).drop 1).dropLast)) ∧
    trim ((trim "  [ my section ]  \n".toList).drop 1).dropLast = "my section".toList ∧
    (∃ o, alini_parser_step
        { freshParser "[[a]]\n".toList idleHandler with
            activesection := some "old".toList } () = some o ∧ o.ret = 1 ∧ o.calls = [] ∧
      o.parser.activesection = some (trim ((trim "[[a]]\n".toList).drop 1).dropLast)) ∧
    trim ((trim "[[a]]\n".toList).drop 1).dropLast = "[a]".toList :=
  ⟨(header_section_name
      { freshParser "  [ my section ]  \nk=v\n".toList idleHandler with
          activesection := some "old".toList } ()
      "  [ my section ]  \n".toList "k=v\n".toList (by decide) (by decide) (by decide)
      (by decide) (by decide)).2.1 idleHandler "k=v\n".toList [] rfl (by decide) (by decide),
   by decide,
   (header_section_name
      { freshParser "[[a]]\n".toList idleHandler with activesection := some "old".toList } ()
      "[[a]]\n".toList [] (by decide) (by decide) (by decide) (by decide) (by decide)).2.2 rfl,
   by decide⟩

theorem fgetsChars_length (s : List Char) (n : Nat) : (fgetsChars s n).1.length ≤ n := by
  induction s generalizing n with
  | nil => simp [fgetsChars]
  | cons c cs ih =>
    unfold fgetsChars
    by_cases hn : n = 0
    · simp [hn]
    · by_cases hc : c = '\n'
      · simp [hn, hc]; omega
      · simp only [hn, hc, if_false, List.length_cons]
        have := ih (n - 1)
        omega

theorem fgetsChars_full (chunk tail : List Char) (n : Nat) (hlen : chunk.length = n)
    (hnl : '\n' ∉ chunk) : fgetsChars (chunk ++ tail) n = (chunk, tail) := by
  induction chunk generalizing n with
  | nil =>
    simp at hlen
    subst hlen
    cases tail <;> simp [fgetsChars]
  | cons c cs ih =>
    simp at hlen hnl
    have hn : n ≠ 0 := by omega
    have hc : ¬ c = '\n' := fun h => hnl.1 h.symm
    rw [List.cons_append, fgetsChars]
    simp only [hn, hc, if_false]
    rw [ih (n - 1) (by omega) hnl.2]

theorem fgets_bound {file : List Char} {line : Str} {rest : List Char}
    (h : fgets 4095 file = some (line, rest)) :
    line.length ≤ 4094 ∧ file.length ≤ rest.length + 4094 := by
  cases file with
  | nil => simp [fgets] at h
  | cons c cs =>
    simp only [fgets, Option.some.injEq, Prod.mk.injEq] at h
    have h1 := fgetsChars_length (c :: cs) 4094
    have h2 := congrArg List.length (fgetsChars_append (c :: cs) 4094)
    have h3 : (cstr (fgetsChars (c :: cs) 4094).1).length ≤ (fgetsChars (c :: cs) 4094).1.length :=
      (List.takeWhile_sublist _).length_le
    rw [← h.1, ← h.2]
    simp only [show 4095 - 1 = 4094 from rfl, List.length_append] at h2 ⊢
    omega

theorem fgets_full (chunk tail : List Char) (hlen : chunk.length = 4094) (hnl : '\n' ∉ chunk) :
    fgets 4095 (chunk ++ tail) = some (cstr chunk, tail) := by
  have hfc := fgetsChars_full chunk tail 4094 hlen hnl
  cases hb : chunk ++ tail with
  | nil =>
    have := congrArg List.length hb
    simp only [List.length_append, List.length_nil] at this
    omega
  | cons c cs =>
    rw [fgets, ← hb]
    simp only [show 4095 - 1 = 4094 from rfl, hfc]

theorem fgets_whole (body rest : List Char) (h1 : '\n' ∉ body) (hlen : body.length + 1 ≤ 4094) :
    fgets 4095 (body ++ '\n' :: rest) = some (cstr (body ++ ['\n']), rest) := by
  have hfc := fgetsChars_line body rest 4094 h1 (by omega)
  cases hb : body ++ '\n' :: rest with
  | nil => simp at hb
  | cons c cs =>
    rw [fgets, ← hb]
    simp only [show 4095 - 1 = 4094 from rfl, hfc]

theorem fgetsChars_last (s : List Char) (n : Nat) (hnl : '\n' ∉ s) (hlen : s.length ≤ n) :
    fgetsChars s n = (s, []) := by
  induction s generalizing n with
  | nil => simp [fgetsChars]
  | cons c cs ih =>
    simp at hlen hnl
    have hn : n ≠ 0 := by omega
    have hc : ¬ c = '\n' := fun h => hnl.1 h.symm
    rw [fgetsChars]
    simp only [hn, hc, if_false]
    rw [ih (n - 1) hnl.2 (by omega)]

theorem fgets_last (c : Char) (cs : List Char) (hnl : '\n' ∉ c :: cs)
    (hlen : (c :: cs).length ≤ 4094) :
    fgets 4095 (c :: cs) = some (cstr (c :: cs), []) := by
  have hfc := fgetsChars_last (c :: cs) 4094 hnl hlen
  rw [fgets]
  simp only [show 4095 - 1 = 4094 from rfl, hfc]

/-- C18: one read takes at most 4094 bytes.  A line of at most 4094 bytes with
its terminator is read whole, and so is a last line of at most 4094 bytes
without terminator.  Of a longer line the first 4094 bytes are read
as one line and the rest is left to be read as the next line.  So the step
skips the first 4094 bytes of an over-long comment line and goes on with its
tail as a line of its own, the counter being at 2; and an over-long key-value
line delivers key and value from its first 4094 bytes only, the tail staying
in the stream. -/
theorem line_length_bound :
    (∀ (file : List Char) (line : Str) (rest : List Char),
      fgets 4095 file = some (line, rest) →
        line.length ≤ 4094 ∧ file.length ≤ rest.length + 4094) ∧
    (∀ body rest : List Char, '\n' ∉ body → body.length + 1 ≤ 4094 →
      fgets 4095 (body ++ '\n' :: rest) = some (cstr (body ++ ['\n']), rest)) ∧
    (∀ chunk tail : List Char, chunk.length = 4094 → '\n' ∉ chunk →
      fgets 4095 (chunk ++ tail) = some (cstr chunk, tail)) ∧
    (∀ (p : alini_parser_t σ κ) (w : σ) (c : Char) (body tail : List Char),
      c = '#' ∨ c = ';' → body.length = 4093 → '\n' ∉ body → p.file = c :: body ++ tail →
      alini_parser_step p w =
        stepLoop (tail.length + 1) { p with file := tail, linenumber := 2 } w) ∧
    (∀ (p : alini_parser_t σ κ) (w : σ) (h : alini_parser_foundkvpair_callback σ κ)
      (chunk tail : List Char),
      p.foundkvpair_callback = some h → chunk.length = 4094 → '\n' ∉ chunk →
      p.file = chunk ++ tail → isKeyValue (cstr chunk) = true →
      ∃ o, alini_parser_step p w = some o ∧ o.ret = 0 ∧
        o.calls = [⟨p.activesection, keyOf (cstr chunk), valueOf (cstr chunk)⟩] ∧
        o.parser.file = tail ∧ o.parser.linenumber = 2) ∧
    (∀ (c : Char) (cs : List Char), '\n' ∉ c :: cs → (c :: cs).length ≤ 4094 →
      fgets 4095 (c :: cs) = some (cstr (c :: cs), [])) := by
  refine ⟨fun file line rest h => fgets_bound h, fgets_whole, fgets_full, ?_, ?_, fgets_last⟩
  · intro p w c body tail hc hlen hnl hfile
    have hcn : c ≠ '\n' := by rcases hc with e | e <;> subst e <;> decide
    have hc0 : (c != NUL) = true := by rcases hc with e | e <;> subst e <;> decide
    have hfg : fgets 4095 p.file = some (cstr (c :: body), tail) := by
      rw [hfile]
      change fgets 4095 ((c :: body) ++ tail) = _
      exact fgets_full (c :: body) tail (by simp [hlen]) (by
        simp only [List.mem_cons, not_or]
        exact ⟨fun e => hcn e.symm, hnl⟩)
    have hskip : skipLine (cstr (c :: body)) = true := by
      have hcs : cstr (c :: body) = c :: cstr body := by
        unfold cstr
        simp [List.takeWhile_cons, hc0]
      rw [hcs]
      unfold skipLine
      rcases hc with e | e <;> subst e <;> simp [charAt]
    change stepFrom { p with linenumber := 1 } w = _
    rw [stepFrom_line { p with linenumber := 1 } w _ tail hfg, if_pos hskip]
    rfl
  · intro p w h chunk tail hcb hlen hnl hfile hkv
    have hfg : fgets 4095 p.file = some (cstr chunk, tail) := by
      rw [hfile]
      exact fgets_full chunk tail hlen hnl
    unfold isKeyValue at hkv
    simp only [Bool.and_eq_true, Bool.not_eq_true'] at hkv
    obtain ⟨⟨h1, h2⟩, h3⟩ := hkv
    exact ⟨_, step_keyvalue p w h _ tail hcb hfg h1 h2 h3, rfl, rfl, rfl, rfl⟩

/-- C18, witness: a comment line of 4094 bytes and more.  The bytes after the
first 4094, here `k=v`, are read as a line of their own and delivered to the
handler; the line number is then 3.  And a key-value line of 4094 bytes and
more: the bytes after the first 4094, here `TAIL`, stay in the stream. -/
theorem line_length_bound_witness :
    (∃ o, alini_parser_step
        (freshParser ('#' :: List.replicate 4093 'a' ++ "k=v\n".toList) idleHandler) ()
        = some o ∧ o.ret = 0 ∧
      o.calls = [⟨none, "k".toList, "v".toList⟩] ∧ o.parser.linenumber = 3) ∧
    (∃ o, alini_parser_step
        (freshParser (('k' :: '=' :: List.replicate 4092 'v') ++ "TAIL\n".toList) idleHandler) ()
        = some o ∧ o.ret = 0 ∧
      o.calls = [⟨none, keyOf (cstr ('k' :: '=' :: List.replicate 4092 'v')),
                  valueOf (cstr ('k' :: '=' :: List.replicate 4092 'v'))⟩] ∧
      o.parser.file = "TAIL\n".toList ∧ o.parser.linenumber = 2) := by
  constructor
  · rw [line_length_bound.2.2.2.1
      (freshParser ('#' :: List.replicate 4093 'a' ++ "k=v\n".toList) idleHandler) ()
      '#' (List.replicate 4093 'a') "k=v\n".toList (Or.inl rfl) (List.length_replicate 4093 'a')
      (fun hm => absurd (List.eq_of_mem_replicate hm) (by decide)) rfl]
    exact ⟨_, rfl, rfl, rfl, rfl⟩
  · have hmem : ∀ c : Char, c ≠ 'k' → c ≠ '=' → c ≠ 'v' →
        c ∉ 'k' :: '=' :: List.replicate 4092 'v' := by
      intro c h1 h2 h3 hm
      rcases List.mem_cons.mp hm with e | hm
      · exact h1 e
      · rcases List.mem_cons.mp hm with e | hm
        · exact h2 e
        · exact h3 (List.eq_of_mem_replicate hm)
    have hkv : isKeyValue (cstr ('k' :: '=' :: List.replicate 4092 'v')) = true := by
      rw [cstr_of_not_mem _ (hmem NUL (by decide) (by decide) (by decide))]
      have hp := plain_line [] ('=' :: List.replicate 4092 'v') 'k' (by intro c hc; cases hc)
        (by decide) (by decide) (by decide) (by decide)
      rw [List.nil_append] at hp
      unfold isKeyValue hasEq
      rw [hp.1, hp.2]
      have : '=' ∈ 'k' :: '=' :: List.replicate 4092 'v' :=
        List.mem_cons_of_mem _ (List.mem_cons_self _ _)
      simp only [this, decide_True, Bool.not_false, Bool.and_self]
    exact line_length_bound.2.2.2.2.1
      (freshParser (('k' :: '=' :: List.replicate 4092 'v') ++ "TAIL\n".toList) idleHandler) ()
      idleHandler ('k' :: '=' :: List.replicate 4092 'v') "TAIL\n".toList rfl
      (by rw [List.length_cons, List.length_cons, List.length_replicate])
      (hmem '\n' (by decide) (by decide) (by decide)) rfl hkv

theorem keyOf_head (l : Str) (h : (keyOf l).head? = some '[') :
    (trim l).head? = some '[' := by
  unfold keyOf at h
  rw [head?_trim] at h ⊢
  have hsplit := List.takeWhile_append_dropWhile (fun c => c != '=') l
  cases hd : List.dropWhile isspace (List.takeWhile (fun c => c != '=') l) with
  | nil => rw [hd] at h; cases h
  | cons x t =>
    rw [hd] at h
    rw [← hsplit, List.dropWhile_append, hd]
    simpa using h

/-- C19: the header test comes before the search for `=`.  A line that is not
skipped and whose trimmed form is longer than 2 characters and begins with `[`
is never delivered to the handler, with or without `=`: with the closing `]`
the step stores the section and goes on with the following lines, without it
the step returns -1.  Hence a key that begins with `[` comes from a line whose
trimmed form has at most 2 characters. -/
theorem header_before_equals (p : alini_parser_t σ κ) (w : σ) :
    (∀ (line : Str) (rest : List Char), fgets 4095 p.file = some (line, rest) →
      skipLine line = false → 2 < (trim line).length → (trim line).head? = some '[' →
      ((trim line).getLast? = some ']' →
        alini_parser_step p w =
          stepLoop (rest.length + 1)
            { p with file := rest, linenumber := 2,
                     activesection := some (sectionName line) } w) ∧
      ((trim line).getLast? ≠ some ']' →
        alini_parser_step p w =
          some ⟨-1, { p with file := rest, linenumber := 2 }, w, []⟩)) ∧
    (∀ (o : Outcome σ κ) (c : Call), alini_parser_step p w = some o → c ∈ o.calls →
      c.key.head? = some '[' →
      ∃ pre l, readsLines p.file (pre ++ [l]) o.parser.file = true ∧ c.key = keyOf l ∧
        (trim l).length ≤ 2) := by
  constructor
  · intro line rest hfg hs hlen hopen
    have hc : isHeaderCandidate line = true := by simp [isHeaderCandidate, hlen, hopen]
    constructor
    · intro hclose
      have hb : endsWithBracket line = true := by simp [endsWithBracket, hclose]
      change stepFrom { p with linenumber := 1 } w = _
      rw [stepFrom_line { p with linenumber := 1 } w line rest hfg]
      simp only [hs, hc, hb, if_true, if_false, Bool.false_eq_true]
      rfl
    · intro hclose
      have hbad : isMalformed line = true := by
        simp [isMalformed, hs, hc, endsWithBracket, hclose]
      exact stepFrom_malformed { p with linenumber := 1 } w line rest hfg hbad
  · intro o c ho hc hkey
    obtain ⟨lines, hr, _, hcase⟩ := stepLoop_trace _ _ _ _ ho
    simp only [] at hr hcase
    rcases hcase with ⟨_, h0, _⟩ | ⟨_, h0, _⟩ | ⟨_, pre, l, hl, hkv, hcalls⟩
    · rw [h0] at hc; cases hc
    · rw [h0] at hc; cases hc
    · rw [hcalls] at hc
      simp only [List.mem_singleton] at hc
      subst hc
      refine ⟨pre, l, by rw [← hl]; exact hr, rfl, ?_⟩
      have hhead := keyOf_head l hkey
      unfold isKeyValue at hkv
      simp only [Bool.and_eq_true, Bool.not_eq_true'] at hkv
      have hcand := hkv.1.2
      unfold isHeaderCandidate at hcand
      simp only [hhead, beq_self_eq_true, Bool.and_true, decide_eq_false_iff_not, not_lt] at hcand
      exact hcand

/-- C19, witness: `[a=b]` sets the section `a=b`, `[a]=b` is rejected, and the
key `[` delivered for the line ` [=` comes from a line whose trimmed form has
at most 2 characters. -/
theorem header_before_equals_witness :
    alini_parser_step (freshParser "[a=b]\nk=v\n".toList idleHandler) () =
      stepLoop ("k=v\n".toList.length + 1)
        { freshParser "[a=b]\nk=v\n".toList idleHandler with
            file := "k=v\n".toList, linenumber := 2,
            activesection := some (sectionName "[a=b]\n".toList) } () ∧
    sectionName "[a=b]\n".toList = "a=b".toList ∧
    alini_parser_step (freshParser "[a]=b\nk=v\n".toList idleHandler) () =
      some ⟨-1, { freshParser "[a]=b\nk=v\n".toList idleHandler with
                    file := "k=v\n".toList, linenumber := 2 }, (), []⟩ ∧
    (∃ pre l, readsLines (freshParser " [=\n".toList idleHandler).file (pre ++ [l]) [] = true ∧
      "[".toList = keyOf l ∧ (trim l).length ≤ 2) := by
  refine ⟨((header_before_equals (freshParser "[a=b]\nk=v\n".toList idleHandler) ()).1
      "[a=b]\n".toList "k=v\n".toList (by decide) (by decide) (by decide) (by decide)).1
      (by decide),
   by decide,
   ((header_before_equals (freshParser "[a]=b\nk=v\n".toList idleHandler) ()).1
      "[a]=b\n".toList "k=v\n".toList (by decide) (by decide) (by decide) (by decide)).2
      (by decide), ?_⟩
  obtain ⟨o, ho, hcalls, hfile⟩ :
      ∃ o, alini_parser_step (freshParser " [=\n".toList idleHandler) () = some o ∧
        o.calls = [⟨none, "[".toList, []⟩] ∧ o.parser.file = [] :=
    ⟨_, rfl, by decide, rfl⟩
  have hw := (header_before_equals (freshParser " [=\n".toList idleHandler) ()).2 o
    ⟨none, "[".toList, []⟩ ho (by rw [hcalls]; exact List.mem_singleton.mpr rfl)
    (by decide)
  rw [hfile] at hw
  exact hw

/-- With a handler registered, the loop of `alini_parser_start` returns whenever
its fuel exceeds the number of bytes left by more than one. -/
theorem startLoop_total (f : Nat) (p : alini_parser_t σ κ) (w : σ) (ret : Int)
    (acc : List Call) (h : alini_parser_foundkvpair_callback σ κ)
    (hcb : p.foundkvpair_callback = some h) (hf : p.file.length + 1 < f) :
    ∃ o, startLoop f p w ret acc = some o := by
  induction f generalizing p w ret acc with
  | zero => omega
  | succ f ih =>
    rw [startLoop]
    by_cases hc : (p.running && ret == 0) = true
    · rw [if_pos hc]
      obtain ⟨o1, h1⟩ : ∃ o, alini_parser_step p w = some o :=
        stepLoop_total _ _ w h hcb (by simp)
      have hcons := stepLoop_consumes _ _ _ _ h1
      have hctx := stepLoop_context _ _ _ _ h1
      simp only [] at hcons hctx
      simp only [h1]
      by_cases hneg : o1.ret < 0
      · rw [if_pos hneg]; exact ⟨_, rfl⟩
      · rw [if_neg hneg]
        by_cases h0 : o1.ret = 0
        · exact ih _ _ _ _ (by rw [hctx.1]; exact hcb) (by have := hcons.2 h0; omega)
        · exact ⟨_, startLoop_exit f _ _ _ _ (by omega) (Or.inr h0)⟩
    · rw [if_neg hc]; exact ⟨_, rfl⟩

/-- C20: with a handler registered (and returning), `alini_parser_step` and
`alini_parser_start` terminate: every amount of fuel above the number of bytes
left gives the same result.  Each read consumes at least one byte, a step that
returns 0 has consumed some of the input, and the status of a step is 0, 1 or
-1.  After a step has returned 1 the input is exhausted, and every step on an
exhausted input returns 1 again without invoking the handler. -/
theorem parser_terminates (p : alini_parser_t σ κ) (w : σ)
    (h : alini_parser_foundkvpair_callback σ κ) (hcb : p.foundkvpair_callback = some h) :
    (∃ o, alini_parser_step p w = some o ∧
      ∀ f, p.file.length < f → stepLoop f { p with linenumber := 1 } w = some o) ∧
    (∃ o, alini_parser_start p w = some o ∧
      ∀ f, p.file.length + 1 < f → startLoop f p w 0 [] = some o) ∧
    (∀ (file : List Char) (line : Str) (rest : List Char),
      fgets 4095 file = some (line, rest) → rest.length < file.length) ∧
    (∀ o, alini_parser_step p w = some o →
      (o.ret = 0 ∨ o.ret = 1 ∨ o.ret = -1) ∧
      (o.ret = 0 → o.parser.file.length < p.file.length) ∧
      (o.ret = 1 → o.parser.file = [])) ∧
    (∀ (q : alini_parser_t σ κ) (w2 : σ), q.file = [] →
      alini_parser_step q w2 = some ⟨1, { q with linenumber := 1 }, w2, []⟩) := by
  refine ⟨?_, ?_, fun file line rest hfg => fgets_rest_lt hfg, ?_, ?_⟩
  · obtain ⟨o, ho⟩ : ∃ o, alini_parser_step p w = some o :=
      stepLoop_total _ _ w h hcb (by simp)
    refine ⟨o, ho, fun f hf => ?_⟩
    rw [← ho]
    exact stepLoop_fuel _ _ _ _ (by simpa using hf) (by simp)
  · obtain ⟨o, ho⟩ : ∃ o, alini_parser_start p w = some o :=
      startLoop_total _ p w 0 [] h hcb (by omega)
    refine ⟨o, ho, fun f hf => ?_⟩
    rw [← ho]
    exact startLoop_fuel _ _ _ _ _ _ hf (by omega)
  · intro o ho
    have hcons := stepLoop_consumes _ _ _ _ ho
    obtain ⟨lines, _, _, hcase⟩ := stepLoop_trace _ _ _ _ ho
    simp only [] at hcons
    refine ⟨?_, hcons.2, ?_⟩
    · rcases hcase with ⟨hc, _⟩ | ⟨hc, _⟩ | ⟨hc, _⟩
      · exact Or.inr (Or.inl hc)
      · exact Or.inr (Or.inr hc)
      · exact Or.inl hc
    · intro h1
      rcases hcase with ⟨_, _, hfile⟩ | ⟨hc, _⟩ | ⟨hc, _⟩
      · exact hfile
      · rw [h1] at hc; cases hc
      · rw [h1] at hc; cases hc
  · intro q w2 hq
    exact stepFrom_eof { q with linenumber := 1 } w2 hq

/-- C20, witness: on the end-to-end example the step and the run return with
any sufficient fuel, and a step on an exhausted input returns 1. -/
theorem parser_terminates_witness :
    (∃ o, alini_parser_step (freshParser exampleInput idleHandler) () = some o ∧
      ∀ f, (freshParser exampleInput idleHandler).file.length < f →
        stepLoop f { freshParser exampleInput idleHandler with linenumber := 1 } () = some o) ∧
    (∃ o, alini_parser_start (freshParser exampleInput idleHandler) () = some o ∧
      ∀ f, (freshParser exampleInput idleHandler).file.length + 1 < f →
        startLoop f (freshParser exampleInput idleHandler) () 0 [] = some o) ∧
    alini_parser_step (freshParser [] idleHandler) () =
      some ⟨1, { freshParser [] idleHandler with linenumber := 1 }, (), []⟩ :=
  ⟨(parser_terminates (freshParser exampleInput idleHandler) () idleHandler rfl).1,
   (parser_terminates (freshParser exampleInput idleHandler) () idleHandler rfl).2.1,
   (parser_terminates (freshParser exampleInput idleHandler) () idleHandler rfl).2.2.2.2
     (freshParser [] idleHandler) () rfl⟩

end Alini
